import Mathlib

/-!
Verification development for the VINF repository (DailyMed crawler,
TF-IDF indexer and search engine).  The definitions below are a shallow
embedding of the Python sources:

* `src/indexer_old.py`   — `DrugTFIDFIndexer` (tokenize, add_document,
  save_index, load_index);
* `src/search_engine_old.py` — `IDFCalculator` and `DrugSearchEngine.search`;
* `src/crawler_fixed.py` — `DailyMedCrawler` (fetch, crawl loop, frontier).

Python dictionaries are embedded as insertion-ordered association lists,
Python sets as lists with membership-guarded insertion, machine floats as
real numbers, and the regular-expression passes of `tokenize` as
deterministic scanners that implement exactly the backtracking behaviour
of the concrete patterns used in the source (documented at each scanner).
-/

/-! ## Character classes (Python `re` semantics, ASCII range) -/

/-- Python regex `\w`: alphanumeric or underscore (ASCII fragment). -/
def pyWordChar (c : Char) : Bool := c.isAlphanum || c == '_'

/-- Python regex `\s`: the six ASCII whitespace characters. -/
def pySpace (c : Char) : Bool :=
  c == ' ' || c == '\t' || c == '\n' || c == '\r' || c == '\x0b' || c == '\x0c'

/-- The character class `[a-z]`. -/
def lowerAlpha (c : Char) : Bool := 'a' ≤ c && c ≤ 'z'

/-- Word-character test on an optional previous character (string edge
counts as non-word, as in Python's `\b`). -/
def isWordOpt : Option Char → Bool
  | some c => pyWordChar c
  | none => false

/-- Is the next character (if any) a word character?  Used for `\b` checks
after a non-word character such as `%`: the boundary holds iff the next
character is a word character. -/
def wordNext : List Char → Bool
  | [] => false
  | c :: _ => pyWordChar c

/-- Is the next position a word boundary after a word character (i.e. the
next character is absent or a non-word character)? -/
def nonWordNext : List Char → Bool
  | [] => true
  | c :: _ => ! pyWordChar c

/-! ## Python dict as insertion-ordered association list

`d[k] = v` keeps the position of an existing key and appends new keys at
the end; lookups read the (unique) binding.  These mirror the CPython
3.7+ dict contract used throughout the sources. -/

/-- Lookup, `d.get(k)`. -/
def dictGet? {β : Type} : List (String × β) → String → Option β
  | [], _ => none
  | p :: rest, k => if p.1 = k then some p.2 else dictGet? rest k

/-- Lookup with default, `d.get(k, v0)`. -/
def dictGetD {β : Type} (d : List (String × β)) (k : String) (v0 : β) : β :=
  (dictGet? d k).getD v0

/-- Assignment `d[k] = v`: replace the binding in place, or append. -/
def dictSet {β : Type} : List (String × β) → String → β → List (String × β)
  | [], k, v => [(k, v)]
  | p :: rest, k, v => if p.1 = k then (k, v) :: rest else p :: dictSet rest k v

/-- The keys of an association list, in order. -/
def dictKeys {β : Type} (d : List (String × β)) : List String := d.map Prod.fst

/-- Unique-keys well-formedness (always true for dicts built by the code). -/
def NodupKeys {β : Type} (d : List (String × β)) : Prop := (dictKeys d).Nodup

/-- Sum of the (natural-number) values of a dict. -/
def sumVals (d : List (String × Nat)) : Nat := (d.map Prod.snd).sum

/-! ## Tokenizer: `DrugTFIDFIndexer.tokenize`

The Python function runs four regex passes over the lowercased text:

1. `dosages = re.findall(r'\b\d+(?:\.\d+)?\s*(?:mg|mcg|g|ml|mcl|ug|iu|units?)\b(?:/\w+)?', text)`
   followed by `re.sub(dosage_pattern, ' ', text)` (whitespace inside each
   dosage token is then removed);
2. `compounds = re.findall(r'\b[a-z]+(?:-[a-z]+)+\b', text)`;
3. `percentages = re.findall(r'\b\d+(?:\.\d+)?%\b', text)`;
4. `words = re.findall(r'\b[a-z]{3,}\b', text)`;

then keeps a token iff it contains a digit, a hyphen or a percent sign,
or is a non-stop-word of length > 2.  Each pass is embedded as a scanner
implementing the leftmost, greedy, non-overlapping match semantics of the
pattern. -/

/-- The unit alternation `mg|mcg|g|ml|mcl|ug|iu` in source order (the
trailing `units?` alternative is handled separately). -/
def unitAlts : List (List Char) :=
  [['m','g'], ['m','c','g'], ['g'], ['m','l'], ['m','c','l'], ['u','g'], ['i','u']]

/-- Try one unit alternative at the head of `s`; the regex continues with
`\b`, so the alternative only succeeds when followed by a non-word
character or the end of the text. -/
def tryUnitAlt (s : List Char) (alt : List Char) : Option (List Char × List Char) :=
  if alt.isPrefixOf s then
    let rest := s.drop alt.length
    if nonWordNext rest then some (alt, rest) else none
  else none

/-- The alternation `(?:mg|mcg|g|ml|mcl|ug|iu|units?)\b`: alternatives are
tried in source order (Python backtracks to the next alternative when the
following `\b` fails); `units?` greedily prefers the plural. -/
def tryUnits (s : List Char) : Option (List Char × List Char) :=
  match unitAlts.findSome? (tryUnitAlt s) with
  | some r => some r
  | none =>
    if ['u','n','i','t','s'].isPrefixOf s ∧ nonWordNext (s.drop 5) then
      some (['u','n','i','t','s'], s.drop 5)
    else if ['u','n','i','t'].isPrefixOf s ∧ nonWordNext (s.drop 4) then
      some (['u','n','i','t'], s.drop 4)
    else none

/-- The optional suffix `(?:/\w+)?` (greedy). -/
def slashPart (s : List Char) : List Char × List Char :=
  match s with
  | '/' :: rest =>
    let w := rest.takeWhile pyWordChar
    if w.isEmpty then ([], s) else ('/' :: w, rest.drop w.length)
  | _ => ([], s)

/-- `\d+` (greedy, at least one digit). -/
def numPart (s : List Char) : Option (List Char × List Char) :=
  let ds := s.takeWhile Char.isDigit
  if ds.isEmpty then none else some (ds, s.drop ds.length)

/-- The optional fraction `(?:\.\d+)?` (greedy). -/
def fracPart (s : List Char) : Option (List Char × List Char) :=
  match s with
  | '.' :: rest =>
    let ds := rest.takeWhile Char.isDigit
    if ds.isEmpty then none else some ('.' :: ds, rest.drop ds.length)
  | _ => none

/-- The tail `\s*(?:mg|…|units?)\b(?:/\w+)?` of the dosage pattern.
Shrinking `\s*` or `\d+` can never rescue a failed unit match (no unit
starts with a space or digit), so the greedy parse is exact. -/
def dosageTail (s : List Char) : Option (List Char × List Char) :=
  let sp := s.takeWhile pySpace
  let s1 := s.drop sp.length
  match tryUnits s1 with
  | none => none
  | some (u, s2) =>
    let (sl, s3) := slashPart s2
    some (sp ++ u ++ sl, s3)

/-- One attempted match of the dosage pattern at the current position:
requires a `\b` (previous character non-word) and then the number, the
greedy optional fraction (with Python's backtracking to the empty
alternative when the tail fails after the fraction), and the tail. -/
def tryDosage (prev : Option Char) (s : List Char) : Option (List Char × List Char) :=
  if isWordOpt prev then none
  else
    match numPart s with
    | none => none
    | some (ds, s1) =>
      match fracPart s1 with
      | some (fr, s2) =>
        (match dosageTail s2 with
         | some (t, s3) => some (ds ++ fr ++ t, s3)
         | none =>
           match dosageTail s1 with
           | some (t, s3) => some (ds ++ t, s3)
           | none => none)
      | none =>
        match dosageTail s1 with
        | some (t, s3) => some (ds ++ t, s3)
        | none => none

/-- `re.findall` and `re.sub(pattern, ' ', text)` for the dosage pattern in
one left-to-right, non-overlapping pass: returns the matches and the text
with every match replaced by a single space. -/
def dosageScan : Nat → Option Char → List Char → List (List Char) × List Char
  | 0, _, _ => ([], [])
  | _ + 1, _, [] => ([], [])
  | fuel + 1, prev, c :: rest =>
    match tryDosage prev (c :: rest) with
    | some (m, s') =>
      let r := dosageScan fuel (some (m.getLast?.getD c)) s'
      (m :: r.1, ' ' :: r.2)
    | none =>
      let r := dosageScan fuel (some c) rest
      (r.1, c :: r.2)

/-- One attempted match of `\b\d+(?:\.\d+)?%\b` at the current position.
The trailing `\b` sits after the non-word `%`, so it requires the *next*
character to be a word character. -/
def tryPercent (prev : Option Char) (s : List Char) : Option (List Char × List Char) :=
  if isWordOpt prev then none
  else
    match numPart s with
    | none => none
    | some (ds, s1) =>
      match fracPart s1 with
      | some (fr, s2) =>
        (match s2 with
         | '%' :: r2 => if wordNext r2 then some (ds ++ fr ++ ['%'], r2) else none
         | _ => none)
      | none =>
        match s1 with
        | '%' :: r1 => if wordNext r1 then some (ds ++ ['%'], r1) else none
        | _ => none

/-- `re.findall` for the percentage pattern. -/
def percentScan : Nat → Option Char → List Char → List (List Char)
  | 0, _, _ => []
  | _ + 1, _, [] => []
  | fuel + 1, prev, c :: rest =>
    match tryPercent prev (c :: rest) with
    | some (m, s') => m :: percentScan fuel (some (m.getLast?.getD c)) s'
    | none => percentScan fuel (some c) rest

/-- Split a text into its maximal runs of word / non-word characters, each
run tagged with `true` for word characters.  `\b` holds exactly at the
edges of the `true` runs. -/
def splitRuns : List Char → List (Bool × List Char)
  | [] => []
  | c :: rest =>
    match splitRuns rest with
    | (b, run) :: more =>
      if pyWordChar c = b then (b, c :: run) :: more
      else (pyWordChar c, [c]) :: (b, run) :: more
    | [] => [(pyWordChar c, [c])]

/-- Collect the maximal chain of all-lowercase-letter word runs linked by
single-hyphen separators, starting from the run `first`; returns the
collected segments and the remaining run list.  This is the greedy
`[a-z]+(?:-[a-z]+)+` repetition: Python extends the chain while the next
two runs are exactly `-` and an all-letter run, and the final `\b` then
holds because the last segment is a maximal word run. -/
def chainCollect : Nat → List Char → List (Bool × List Char) → List (List Char) × List (Bool × List Char)
  | 0, first, rs => ([first], rs)
  | fuel + 1, first, (false, ['-']) :: (true, r) :: rest =>
    if r.all lowerAlpha then
      let p := chainCollect fuel r rest
      (first :: p.1, p.2)
    else ([first], (false, ['-']) :: (true, r) :: rest)
  | _ + 1, first, rs => ([first], rs)

/-- `re.findall(r'\b[a-z]+(?:-[a-z]+)+\b', text)`.  A match must start at
the beginning of a maximal word run that is entirely `[a-z]` (the leading
`\b` and the greedy `[a-z]+` force this), its segments must be such runs
joined by single hyphens, and a chain of length one is not a match.
Scanning resumes after the end of a match. -/
def compoundsFromRuns : Nat → List (Bool × List Char) → List (List Char)
  | 0, _ => []
  | _ + 1, [] => []
  | fuel + 1, (true, r) :: rest =>
    if r.all lowerAlpha then
      let p := chainCollect (rest.length + 1) r rest
      if 2 ≤ p.1.length then List.intercalate ['-'] p.1 :: compoundsFromRuns fuel p.2
      else compoundsFromRuns fuel rest
    else compoundsFromRuns fuel rest
  | fuel + 1, _ :: rest => compoundsFromRuns fuel rest

/-- `re.findall(r'\b[a-z]{3,}\b', text)`: exactly the maximal word runs
that consist of lowercase letters only and have length at least three
(any shorter attempt inside a longer run fails the closing `\b`). -/
def wordsFromRuns (rs : List (Bool × List Char)) : List (List Char) :=
  rs.filterMap (fun p =>
    if p.1 && p.2.all lowerAlpha && decide (3 ≤ p.2.length) then some p.2 else none)

/-- `GENERAL_STOPWORDS` from `DrugTFIDFIndexer.__init__`. -/
def GENERAL_STOPWORDS : List String :=
  ["the", "a", "an", "and", "or", "but", "in", "on", "at", "to",
   "for", "of", "with", "by", "from", "as", "is", "was", "are",
   "were", "been", "be", "have", "has", "had", "do", "does", "did",
   "will", "would", "should", "could", "may", "might", "can", "this",
   "that", "these", "those", "it", "its", "you", "your", "not", "who", "any"]

/-- `DOMAIN_STOPWORDS` from `DrugTFIDFIndexer.__init__`. -/
def DOMAIN_STOPWORDS : List String :=
  ["drug", "drugs", "medicine", "medication", "medications",
   "treatment", "pharmaceutical", "therapy", "oral", "patient",
   "patients", "may", "should", "can", "use", "used", "using"]

/-- `ALL_STOPWORDS = GENERAL_STOPWORDS | DOMAIN_STOPWORDS` (membership in
the union is what the code tests). -/
def ALL_STOPWORDS : List String := GENERAL_STOPWORDS ++ DOMAIN_STOPWORDS

/-- The keep condition of the final filter loop in `tokenize`: a token
containing a digit, hyphen or percent sign is always kept; otherwise it
must avoid the stop-word set and have length > 2. -/
def keepTok (t : String) : Bool :=
  t.data.any Char.isDigit || t.data.contains '-' || t.data.contains '%' ||
    (! decide (t ∈ ALL_STOPWORDS) && decide (2 < t.length))

/-- `DrugTFIDFIndexer.tokenize`. -/
def tokenize (text : String) : List String :=
  if text = "" ∨ text = "Not found" then []
  else
    let t : List Char := text.data.map Char.toLower
    let scan := dosageScan (t.length + 1) none t
    let dosageToks := scan.1.map (fun d => d.filter (fun c => ! pySpace c))
    let t2 := scan.2
    let runs := splitRuns t2
    let compounds := compoundsFromRuns (runs.length + 1) runs
    let percents := percentScan (t2.length + 1) none t2
    let words := wordsFromRuns runs
    ((dosageToks ++ compounds ++ percents ++ words).map String.mk).filter keepTok

/-! ## Inverted index: `DrugTFIDFIndexer` state and `add_document`  -/

/-- `collections.Counter` over a token list: counts in first-occurrence
order (CPython guarantees insertion order for `Counter`). -/
def counter (l : List String) : List (String × Nat) :=
  l.foldl (fun d t => dictSet d t (dictGetD d t 0 + 1)) []

/-- The observable state of a `DrugTFIDFIndexer`: `index` (the postings,
`defaultdict(dict)`), `doc_count`, `doc_lengths` and the `drugs` record
store (each drug record is itself a string-valued dict row). -/
structure Indexer where
  index : List (String × List (String × Nat))
  doc_count : Nat
  doc_lengths : List (String × Nat)
  drugs : List (String × List (String × String))
deriving DecidableEq

/-- A fresh `DrugTFIDFIndexer()`. -/
def emptyIndexer : Indexer := ⟨[], 0, [], []⟩

/-- `DrugTFIDFIndexer.add_document`: tokenize, count terms, write
`index[term][doc_id] = count` for each distinct term (the defaultdict
creates a fresh inner dict for unseen terms), set
`doc_lengths[doc_id] = len(tokens)` and increment `doc_count`. -/
def add_document (idx : Indexer) (doc_id : String) (text : String) : Indexer :=
  let tokens := tokenize text
  let term_counts := counter tokens
  { index := term_counts.foldl
      (fun ix p => dictSet ix p.1 (dictSet (dictGetD ix p.1 []) doc_id p.2)) idx.index,
    doc_count := idx.doc_count + 1,
    doc_lengths := dictSet idx.doc_lengths doc_id tokens.length,
    drugs := idx.drugs }

/-- A sequence of `add_document` calls starting from a fresh indexer. -/
def buildIndex (docs : List (String × String)) : Indexer :=
  docs.foldl (fun ix p => add_document ix p.1 p.2) emptyIndexer

/-- Sum of `postings[term].get(d, 0)` over all terms of the index. -/
def postingsSum (ix : List (String × List (String × Nat))) (d : String) : Nat :=
  (ix.map (fun p => dictGetD p.2 d 0)).sum

/-- Well-formedness of an indexer as built by the code: the postings dict
and every inner postings dict have unique keys. -/
def IndexerWF (idx : Indexer) : Prop :=
  NodupKeys idx.index ∧ ∀ p ∈ idx.index, NodupKeys p.2

instance : DecidablePred IndexerWF := fun idx => by
  unfold IndexerWF NodupKeys
  infer_instance

/-! ## Persistence: `save_index` / `load_index` through a JSON document -/

/-- The JSON fragment needed by `save_index` (string keys, natural-number
term frequencies and lengths, string-valued drug records). -/
inductive Json where
  | num (n : Nat)
  | str (s : String)
  | obj (fields : List (String × Json))

/-- Encode a dict by encoding each value (`json.dump` of a Python dict). -/
def encodeDict {β : Type} (enc : β → Json) (d : List (String × β)) : Json :=
  .obj (d.map (fun p => (p.1, enc p.2)))

/-- `DrugTFIDFIndexer.save_index`: the JSON document
`{'index': …, 'doc_count': …, 'doc_lengths': …, 'drugs': …}` written to
disk (the `defaultdict` is converted to plain dicts, which is the
identity on contents). -/
def save_index (idx : Indexer) : Json :=
  .obj [("index", encodeDict (encodeDict Json.num) idx.index),
        ("doc_count", .num idx.doc_count),
        ("doc_lengths", encodeDict Json.num idx.doc_lengths),
        ("drugs", encodeDict (encodeDict Json.str) idx.drugs)]

/-- Decode a JSON number. -/
def decodeNat : Json → Option Nat
  | .num n => some n
  | _ => none

/-- Decode a JSON string. -/
def decodeStr : Json → Option String
  | .str s => some s
  | _ => none

/-- Decode a JSON object into a dict by decoding each value. -/
def decodeDict {β : Type} (dec : Json → Option β) : Json → Option (List (String × β))
  | .obj fs => fs.mapM (fun p => (dec p.2).map (fun b => (p.1, b)))
  | _ => none

/-- Field access `data['k']` on the loaded JSON document. -/
def jfield (j : Json) (k : String) : Option Json :=
  match j with
  | .obj fs => dictGet? fs k
  | _ => none

/-- `DrugTFIDFIndexer.load_index`: read the four fields back (the index is
rewrapped in a `defaultdict(dict)`, which again is the identity on
contents).  Decoding is partial because the file could hold anything. -/
def load_index (j : Json) : Option Indexer := do
  let ix ← jfield j "index" >>= decodeDict (decodeDict decodeNat)
  let dc ← jfield j "doc_count" >>= decodeNat
  let dl ← jfield j "doc_lengths" >>= decodeDict decodeNat
  let dr ← jfield j "drugs" >>= decodeDict (decodeDict decodeStr)
  pure ⟨ix, dc, dl, dr⟩

/-! ## IDF models: `IDFCalculator` (floats embedded as reals) -/

/-- `IDFCalculator.__init__(index, doc_count)`. -/
structure IDFCalculator where
  index : List (String × List (String × Nat))
  N : Nat

/-- `df = len(self.index.get(term, {}))`. -/
def dfOf (c : IDFCalculator) (term : String) : Nat := (dictGetD c.index term []).length

/-- `IDFCalculator.standard_idf`: `0` if `df == 0`, else `log(N/df)`. -/
noncomputable def standard_idf (c : IDFCalculator) (term : String) : ℝ :=
  if dfOf c term = 0 then 0 else Real.log ((c.N : ℝ) / (dfOf c term : ℝ))

/-- `IDFCalculator.smooth_idf`: `log(N/(df+1))`. -/
noncomputable def smooth_idf (c : IDFCalculator) (term : String) : ℝ :=
  Real.log ((c.N : ℝ) / ((dfOf c term : ℝ) + 1))

/-- `IDFCalculator.probabilistic_idf`: `0` if `df == 0` or `df == N`, else
`log((N-df)/df)`. -/
noncomputable def probabilistic_idf (c : IDFCalculator) (term : String) : ℝ :=
  if dfOf c term = 0 ∨ dfOf c term = c.N then 0
  else Real.log (((c.N : ℝ) - (dfOf c term : ℝ)) / (dfOf c term : ℝ))

/-- `IDFCalculator.bm25_idf`: `log((N-df+0.5)/(df+0.5))`. -/
noncomputable def bm25_idf (c : IDFCalculator) (term : String) : ℝ :=
  Real.log (((c.N : ℝ) - (dfOf c term : ℝ) + 0.5) / ((dfOf c term : ℝ) + 0.5))

/-! ## Ranking: `DrugSearchEngine.search`

The search is embedded generically over the score type `α` and the idf
weight function (the Python engine dispatches on a method-name string to
one of the four `IDFCalculator` functions above and falls back to
`standard`; every supported model is therefore an instance of the `idf`
parameter).  The returned list carries `(setid, score)` pairs; the Python
code additionally joins each setid with display fields of its stored drug
record, which does not affect which documents are returned or their
order. -/

/-- Stable insertion of one scored document into a list sorted by
descending score: the new element goes after existing elements with an
equal score.  Folding this over a list is exactly a stable descending
sort, which is what `sorted(…, key=lambda x: x[1], reverse=True)`
computes. -/
def insertDesc {α : Type} [LinearOrder α] (p : String × α) :
    List (String × α) → List (String × α)
  | [] => [p]
  | q :: rest => if p.2 ≤ q.2 then q :: insertDesc p rest else p :: q :: rest

/-- Stable descending sort by score. -/
def sortByScoreDesc {α : Type} [LinearOrder α] (l : List (String × α)) : List (String × α) :=
  l.foldl (fun acc p => insertDesc p acc) []

/-- The body of the inner loop
`for doc_id, tf in self.indexer.index[term].items()`: accumulate
`scores[doc_id] += tf * idf` and `doc_term_counts[doc_id] += 1`. -/
def scoreStep {α : Type} [LinearOrderedField α] (idf : String → α) (term : String)
    (acc : List (String × α) × List (String × Nat)) (p : String × Nat) :
    List (String × α) × List (String × Nat) :=
  (dictSet acc.1 p.1 (dictGetD acc.1 p.1 0 + (p.2 : α) * idf term),
   dictSet acc.2 p.1 (dictGetD acc.2 p.1 0 + 1))

/-- The body of the outer loop `for term in query_terms`: skip terms
absent from the index (`continue`), otherwise fold the term's postings. -/
def termStep {α : Type} [LinearOrderedField α] (idx : Indexer) (idf : String → α)
    (acc : List (String × α) × List (String × Nat)) (term : String) :
    List (String × α) × List (String × Nat) :=
  match dictGet? idx.index term with
  | none => acc
  | some postings => postings.foldl (scoreStep idf term) acc

/-- `DrugSearchEngine.search`: tokenize the query; accumulate, per
document, `score += tf * idf(term)` and a matched-term counter over the
postings of each indexed query term; keep the documents whose matched
count equals the number of indexed query terms; sort by descending score
and truncate to `top_k`. -/
def search {α : Type} [LinearOrderedField α] (idx : Indexer) (idf : String → α)
    (top_k : Nat) (query : String) : List (String × α) :=
  let query_terms := tokenize query
  if query_terms.isEmpty then []
  else
    let acc := query_terms.foldl (termStep idx idf)
      (([], []) : List (String × α) × List (String × Nat))
    let num_query_terms := (query_terms.filter (fun t => (dictGet? idx.index t).isSome)).length
    let filtered := acc.1.filter (fun p => dictGetD acc.2 p.1 0 == num_query_terms)
    if filtered.isEmpty then []
    else (sortByScoreDesc filtered).take top_k

/-! ## Crawler: `DailyMedCrawler.fetch` and the crawl loop -/

/-- One row of the `crawl_metadata.tsv` audit log (the timestamp column is
wall-clock output and is not modelled). -/
structure FetchRecord where
  url : String
  status : String
  http_code : Option Nat
  retries : Nat
  saved_path : String
deriving DecidableEq

/-- The crawler-object state touched by `fetch`: the `visited` set, the
page counter and the append-only metadata log. -/
structure CrawlerState where
  visited : List String
  page_count : Nat
  log : List FetchRecord
deriving DecidableEq

/-- Externally observable side effects of one fetch attempt: the
politeness sleep and the HTTP request. -/
inductive FetchEffect
  | sleep
  | request (url : String)
deriving DecidableEq

/-- Oracle for one HTTP attempt: a 2xx body or a request exception (with
an optional status code on the exception's response). -/
inductive AttemptResult
  | ok (body : String) (code : Nat)
  | err (code : Option Nat)

/-- `self.max_retries`. -/
def max_retries : Nat := 3

/-- `set.add`. -/
def setAdd (l : List String) (u : String) : List String := if u ∈ l then l else u :: l

/-- The retry loop of `fetch` from a given attempt number: every attempt
sleeps and issues the request; a success adds the URL to `visited`, logs
a `success` record and returns the body; the final failed attempt logs a
`failed` record (with `saved_path` `"N/A"`) and returns `None` — without
touching `visited`. -/
def fetchGo (url : String) (oracle : Nat → AttemptResult) (pathOf : Nat → String → String) :
    CrawlerState → List FetchEffect → Nat → Nat → Option String × CrawlerState × List FetchEffect
  | st, effects, _, 0 => (none, st, effects)
  | st, effects, attempt, fuel + 1 =>
    let effects := effects ++ [.sleep, .request url]
    match oracle attempt with
    | .ok body code =>
      (some body,
       { st with visited := setAdd st.visited url,
                 log := st.log ++ [⟨url, "success", some code, attempt, pathOf st.page_count url⟩] },
       effects)
    | .err code =>
      if attempt = max_retries then
        (none, { st with log := st.log ++ [⟨url, "failed", code, attempt, "N/A"⟩] }, effects)
      else fetchGo url oracle pathOf st effects (attempt + 1) fuel

/-- `DailyMedCrawler.fetch`: skip immediately when the URL is already
visited, otherwise run up to `max_retries` attempts.  `pathOf` abstracts
`get_html_path` (a pure function of the page counter and the URL). -/
def fetch (st : CrawlerState) (url : String) (oracle : Nat → AttemptResult)
    (pathOf : Nat → String → String) : Option String × CrawlerState × List FetchEffect :=
  if url ∈ st.visited then (none, st, [])
  else fetchGo url oracle pathOf st [] 1 max_retries

/-- The extension blacklist of `MEDIA_EXTENSIONS`. -/
def MEDIA_EXTS : List String :=
  [".png", ".jpg", ".jpeg", ".gif", ".ico", ".css", ".js", ".svg",
   ".woff", ".woff2", ".ttf", ".eot", ".mp4", ".mp3", ".mov", ".avi"]

/-- `DailyMedCrawler.is_allowed_url`: the regex `\.(png|…|avi)$` with
`re.IGNORECASE` matches iff the lowercased URL ends in one of the listed
extensions. -/
def is_allowed_url (u : String) : Bool :=
  ! MEDIA_EXTS.any (fun e => e.data.isSuffixOf (u.data.map Char.toLower))

/-- The frontier state of the crawl loop: the `visited` set, the page
counter and the FIFO `to_visit` queue. -/
structure FrontierState where
  visited : List String
  page_count : Nat
  queue : List String
deriving DecidableEq

/-- Outcome of fetching one URL that was not yet visited: either the
retries were exhausted, or a body was returned, with `links` standing for
the set of same-origin links that `extract_links` finds in it. -/
inductive CrawlOutcome
  | failure
  | success (html : String) (links : List String)

/-- The link-enqueueing loop of `crawl`: append a link iff it is in
neither `visited` nor the queue and its URL is allowed. -/
def enqueueLinks (visited : List String) (queue : List String) (links : List String) :
    List String :=
  links.foldl (fun q l => if l ∉ visited ∧ l ∉ q ∧ is_allowed_url l then q ++ [l] else q) queue

/-- One iteration of the `while to_visit` loop: pop the front URL; if it
is already visited, `fetch` returns `None` and the loop continues; on
exhausted retries `fetch` likewise returns `None` (leaving `visited`
unchanged); on success the URL joins `visited`, and — unless the body is
falsy — the page is saved (incrementing the page counter) and the
extracted links are enqueued. -/
def crawlStep (s : FrontierState) (o : CrawlOutcome) : FrontierState :=
  match s.queue with
  | [] => s
  | u :: rest =>
    if u ∈ s.visited then { s with queue := rest }
    else
      match o with
      | .failure => { s with queue := rest }
      | .success html links =>
        let visited' := u :: s.visited
        if html = "" then { visited := visited', page_count := s.page_count, queue := rest }
        else { visited := visited', page_count := s.page_count + 1,
               queue := enqueueLinks visited' rest links }

/-- A crawl started from scratch: empty visited set, the seed URL queued. -/
def initFrontier (start_url : String) : FrontierState := ⟨[], 0, [start_url]⟩

/-- A sequence of crawl-loop iterations driven by fetch outcomes. -/
def runCrawl (s : FrontierState) (outs : List CrawlOutcome) : FrontierState :=
  outs.foldl crawlStep s

/-- The frontier invariant claimed by the specification: no queued URL is
visited, and the queue holds no duplicates. -/
def FrontierInv (s : FrontierState) : Prop :=
  (∀ u ∈ s.queue, u ∉ s.visited) ∧ s.queue.Nodup

/-! ## Association-list lemmas -/

theorem dictGet?_set_self {β : Type} (d : List (String × β)) (k : String) (v : β) :
    dictGet? (dictSet d k v) k = some v := by
  induction d with
  | nil => simp [dictSet, dictGet?]
  | cons p rest ih =>
    by_cases h : p.1 = k
    · simp [dictSet, h, dictGet?]
    · simp [dictSet, h, dictGet?, ih]

theorem dictGet?_set_ne {β : Type} (d : List (String × β)) (k k' : String) (v : β)
    (h : k' ≠ k) : dictGet? (dictSet d k v) k' = dictGet? d k' := by
  induction d with
  | nil =>
    simp only [dictSet, dictGet?]
    rw [if_neg (fun hh : k = k' => h hh.symm)]
  | cons p rest ih =>
    by_cases hp : p.1 = k
    · subst hp
      show dictGet? (dictSet (p :: rest) p.1 v) k' = dictGet? (p :: rest) k'
      simp only [dictSet, if_pos rfl, dictGet?]
      rw [if_neg (fun hh : p.1 = k' => h hh.symm), if_neg (fun hh : p.1 = k' => h hh.symm)]
    · simp [dictSet, hp, dictGet?, ih]

theorem dictGetD_set_self {β : Type} (d : List (String × β)) (k : String) (v v0 : β) :
    dictGetD (dictSet d k v) k v0 = v := by
  simp [dictGetD, dictGet?_set_self]

theorem dictGetD_set_ne {β : Type} (d : List (String × β)) (k k' : String) (v : β) (v0 : β)
    (h : k' ≠ k) : dictGetD (dictSet d k v) k' v0 = dictGetD d k' v0 := by
  simp [dictGetD, dictGet?_set_ne _ _ _ _ h]

theorem dictGet?_mem {β : Type} (d : List (String × β)) (k : String) (v : β)
    (h : dictGet? d k = some v) : (k, v) ∈ d := by
  induction d with
  | nil => simp [dictGet?] at h
  | cons p rest ih =>
    by_cases hp : p.1 = k
    · simp [dictGet?, hp] at h
      subst hp; subst h
      exact List.mem_cons_self _ _
    · simp [dictGet?, hp] at h
      exact List.mem_cons_of_mem _ (ih h)

theorem sumVals_set_add (d : List (String × Nat)) (k : String) (n : Nat) :
    sumVals (dictSet d k (dictGetD d k 0 + n)) = sumVals d + n := by
  induction d with
  | nil => simp [dictSet, dictGetD, dictGet?, sumVals]
  | cons p rest ih =>
    by_cases hp : p.1 = k
    · simp [dictSet, hp, dictGetD, dictGet?, sumVals]
      omega
    · simp [dictSet, hp, sumVals] at ih ⊢
      have : dictGetD (p :: rest) k 0 = dictGetD rest k 0 := by
        simp [dictGetD, dictGet?, hp]
      rw [this]
      omega

theorem dictKeys_set {β : Type} (d : List (String × β)) (k : String) (v : β) :
    dictKeys (dictSet d k v) = if k ∈ dictKeys d then dictKeys d else dictKeys d ++ [k] := by
  induction d with
  | nil => simp [dictSet, dictKeys]
  | cons p rest ih =>
    by_cases hp : p.1 = k
    · simp [dictSet, hp, dictKeys]
    · have hne : ¬ k = p.1 := fun hh => hp hh.symm
      simp only [dictSet, if_neg hp, dictKeys, List.map_cons, List.mem_cons, hne,
        false_or] at ih ⊢
      rw [ih]
      by_cases hk : k ∈ List.map Prod.fst rest
      · simp [hk]
      · simp [hk]

theorem nodupKeys_set {β : Type} (d : List (String × β)) (k : String) (v : β)
    (h : NodupKeys d) : NodupKeys (dictSet d k v) := by
  unfold NodupKeys at h ⊢
  rw [dictKeys_set]
  by_cases hk : k ∈ dictKeys d
  · simpa [hk]
  · simpa [hk] using List.Nodup.append h (List.nodup_singleton k) (by simpa using hk)

/-! ## Crawler lemmas and claims C1–C3 -/

theorem enqueueLinks_cons (visited q : List String) (l : String) (ls : List String) :
    enqueueLinks visited q (l :: ls) =
      enqueueLinks visited
        (if l ∉ visited ∧ l ∉ q ∧ is_allowed_url l then q ++ [l] else q) ls := rfl

theorem enqueueLinks_inv (visited : List String) (links : List String) :
    ∀ q, q.Nodup → (∀ u ∈ q, u ∉ visited) →
      (enqueueLinks visited q links).Nodup ∧
      ∀ u ∈ enqueueLinks visited q links, u ∉ visited := by
  induction links with
  | nil => intro q h1 h2; exact ⟨h1, h2⟩
  | cons l ls ih =>
    intro q h1 h2
    rw [enqueueLinks_cons]
    by_cases hc : l ∉ visited ∧ l ∉ q ∧ is_allowed_url l
    · rw [if_pos hc]
      refine ih (q ++ [l]) ?_ ?_
      · simpa [List.nodup_append] using ⟨h1, hc.2.1⟩
      · intro u hu
        rcases List.mem_append.1 hu with hu | hu
        · exact h2 u hu
        · rcases List.mem_singleton.1 hu with rfl
          exact hc.1
    · rw [if_neg hc]
      exact ih q h1 h2

theorem enqueueLinks_mem (visited : List String) (links : List String) :
    ∀ q l, l ∈ enqueueLinks visited q links →
      l ∈ q ∨ (l ∉ visited ∧ l ∈ links ∧ is_allowed_url l = true) := by
  induction links with
  | nil => intro q l h; exact Or.inl h
  | cons l0 ls ih =>
    intro q l h
    rw [enqueueLinks_cons] at h
    rcases ih _ l h with h' | ⟨hnv, hmem, hal⟩
    · by_cases hc : l0 ∉ visited ∧ l0 ∉ q ∧ is_allowed_url l0
      · rw [if_pos hc] at h'
        rcases List.mem_append.1 h' with h'' | h''
        · exact Or.inl h''
        · rcases List.mem_singleton.1 h'' with rfl
          exact Or.inr ⟨hc.1, List.mem_cons_self _ _, hc.2.2⟩
      · rw [if_neg hc] at h'
        exact Or.inl h'
    · exact Or.inr ⟨hnv, List.mem_cons_of_mem _ hmem, hal⟩

theorem enqueueLinks_mem_of_mem (visited : List String) (links : List String) :
    ∀ q l, l ∈ q → l ∈ enqueueLinks visited q links := by
  induction links with
  | nil => intro q l h; exact h
  | cons l0 ls ih =>
    intro q l h
    rw [enqueueLinks_cons]
    by_cases hc : l0 ∉ visited ∧ l0 ∉ q ∧ is_allowed_url l0
    · rw [if_pos hc]
      exact ih _ l (List.mem_append.2 (Or.inl h))
    · rw [if_neg hc]
      exact ih q l h

theorem enqueueLinks_mem_self (visited : List String) (links : List String) :
    ∀ q u, u ∉ visited → u ∉ q → u ∈ links → is_allowed_url u = true →
      u ∈ enqueueLinks visited q links := by
  induction links with
  | nil => intro q u _ _ h _; cases h
  | cons l0 ls ih =>
    intro q u hnv hnq hmem hal
    rw [enqueueLinks_cons]
    by_cases he : l0 = u
    · subst he
      rw [if_pos ⟨hnv, hnq, hal⟩]
      exact enqueueLinks_mem_of_mem _ _ _ _ (List.mem_append.2 (Or.inr (List.mem_singleton.2 rfl)))
    · rcases List.mem_cons.1 hmem with h | h
      · exact absurd h.symm he
      · by_cases hc : l0 ∉ visited ∧ l0 ∉ q ∧ is_allowed_url l0
        · rw [if_pos hc]
          refine ih _ u hnv ?_ h hal
          intro hu
          rcases List.mem_append.1 hu with hu | hu
          · exact hnq hu
          · exact he (List.mem_singleton.1 hu).symm
        · rw [if_neg hc]
          exact ih q u hnv hnq h hal

theorem crawlStep_inv (s : FrontierState) (o : CrawlOutcome) (h : FrontierInv s) :
    FrontierInv (crawlStep s o) := by
  obtain ⟨v, pc, q⟩ := s
  obtain ⟨h1, h2⟩ := h
  match q, h1, h2 with
  | [], _, _ => exact ⟨fun u hu => absurd hu (List.not_mem_nil u), List.nodup_nil⟩
  | u :: rest, h1, h2 =>
    have hrest1 : ∀ x ∈ rest, x ∉ v := fun x hx => h1 x (List.mem_cons_of_mem _ hx)
    have hrest2 : rest.Nodup := (List.nodup_cons.1 h2).2
    have hrestu : u ∉ rest := (List.nodup_cons.1 h2).1
    by_cases hv : u ∈ v
    · have : crawlStep ⟨v, pc, u :: rest⟩ o = ⟨v, pc, rest⟩ := by
        show (if u ∈ v then (⟨v, pc, rest⟩ : FrontierState) else _) = _
        rw [if_pos hv]
      rw [this]
      exact ⟨hrest1, hrest2⟩
    · have hrest1' : ∀ x ∈ rest, x ∉ u :: v := by
        intro x hx
        rw [List.mem_cons]
        rintro (rfl | hxv)
        · exact hrestu hx
        · exact hrest1 x hx hxv
      cases o with
      | failure =>
        have : crawlStep ⟨v, pc, u :: rest⟩ .failure = ⟨v, pc, rest⟩ := by
          show (if u ∈ v then (⟨v, pc, rest⟩ : FrontierState) else ⟨v, pc, rest⟩) = _
          rw [if_neg hv]
        rw [this]
        exact ⟨hrest1, hrest2⟩
      | success html links =>
        have hstep : crawlStep ⟨v, pc, u :: rest⟩ (.success html links) =
            if html = "" then ⟨u :: v, pc, rest⟩
            else ⟨u :: v, pc + 1, enqueueLinks (u :: v) rest links⟩ := by
          show (if u ∈ v then (⟨v, pc, rest⟩ : FrontierState) else _) = _
          rw [if_neg hv]
        rw [hstep]
        by_cases hh : html = ""
        · rw [if_pos hh]
          exact ⟨hrest1', hrest2⟩
        · rw [if_neg hh]
          have := enqueueLinks_inv (u :: v) links rest hrest2 hrest1'
          exact ⟨this.2, this.1⟩

theorem runCrawl_inv (outs : List CrawlOutcome) :
    ∀ s, FrontierInv s → FrontierInv (runCrawl s outs) := by
  induction outs with
  | nil => intro s h; exact h
  | cons o os ih =>
    intro s h
    exact ih (crawlStep s o) (crawlStep_inv s o h)

/-- Claim C2: starting from an empty frontier (`initFrontier`) or any
snapshot satisfying the frontier invariant, every sequence of crawl-loop
iterations preserves `visited ∩ queue = ∅` and queue uniqueness; moreover
a URL enters the queue during link enqueueing only if it was already
queued or was, at that moment, unvisited (and of allowed type) — it is
then appended at most once, as uniqueness shows. -/
theorem c2_frontier_invariant :
    (∀ start_url, FrontierInv (initFrontier start_url)) ∧
    (∀ s, FrontierInv s → ∀ outs, FrontierInv (runCrawl s outs)) ∧
    (∀ visited q links l, l ∈ enqueueLinks visited q links →
      l ∈ q ∨ (l ∉ visited ∧ l ∈ links ∧ is_allowed_url l = true)) := by
  refine ⟨?_, ?_, ?_⟩
  · intro start_url
    exact ⟨by simp [initFrontier], List.nodup_singleton _⟩
  · intro s h outs
    exact runCrawl_inv outs s h
  · intro visited q links l h
    exact enqueueLinks_mem visited links q l h

/-- Witness for C2 at a concrete crawl: a three-step run from a seed. -/
theorem c2_frontier_invariant_witness :
    FrontierInv (runCrawl ⟨[], 0, ["s"]⟩
      [.success "h" ["a", "b", "a.png"], .failure, .success "h2" ["s", "b"]]) :=
  c2_frontier_invariant.2.1 ⟨[], 0, ["s"]⟩ ⟨by decide, by decide⟩
    [.success "h" ["a", "b", "a.png"], .failure, .success "h2" ["s", "b"]]

/-- Claim C1: calling `fetch` on a URL already in the visited set returns
`None` immediately — no sleep, no HTTP request, no appended audit record,
and the crawler state (visited set, page counter, log) is unchanged. -/
theorem c1_fetch_visited_skips (st : CrawlerState) (url : String)
    (oracle : Nat → AttemptResult) (pathOf : Nat → String → String)
    (h : url ∈ st.visited) :
    fetch st url oracle pathOf = (none, st, []) := by
  simp [fetch, h]

/-- Witness for C1 at a concrete visited URL. -/
theorem c1_fetch_visited_skips_witness :
    fetch ⟨["https://dailymed.nlm.nih.gov"], 5, []⟩ "https://dailymed.nlm.nih.gov"
        (fun _ => .err none) (fun _ u => u) =
      (none, ⟨["https://dailymed.nlm.nih.gov"], 5, []⟩, []) :=
  c1_fetch_visited_skips ⟨["https://dailymed.nlm.nih.gov"], 5, []⟩
    "https://dailymed.nlm.nih.gov" (fun _ => .err none) (fun _ u => u) (by decide)

/-- Claim C3 counterexample: in the crawl loop, a URL whose fetch exhausts
its retries (outcome `failure`) is *not* recorded in `visited`; when a
later page links to it again it is re-enqueued, and a further iteration
fetches it successfully — contradicting the claim that such a URL is
never re-enqueued nor fetched again within the same crawl. -/
theorem c3_counterexample :
    "u" ∈ (runCrawl ⟨[], 0, ["u", "p"]⟩
      [.failure, .success "h" ["u"]]).queue ∧
    "u" ∈ (runCrawl ⟨[], 0, ["u", "p"]⟩
      [.failure, .success "h" ["u"], .success "h2" []]).visited := by
  decide

/-- Claim C3 (amended): after exhausting retries the crawl loop drops the
URL from the queue and logs a permanent failure, but does not add it to
the visited set or the page counter; consequently, if the URL is later
rediscovered as a link while absent from both `visited` and the queue
(and of allowed type), the enqueue guard re-appends it, so it can be
fetched again in the same crawl.  Only successful fetches make a URL
permanently skipped. -/
theorem c3_failed_url_not_marked_visited (s : FrontierState) (u : String)
    (rest : List String) (hq : s.queue = u :: rest) (hu : u ∉ s.visited) :
    (crawlStep s .failure).visited = s.visited ∧
    (crawlStep s .failure).page_count = s.page_count ∧
    (crawlStep s .failure).queue = rest ∧
    (∀ visited q links, u ∉ visited → u ∉ q → u ∈ links → is_allowed_url u = true →
      u ∈ enqueueLinks visited q links) := by
  obtain ⟨v, pc, queue⟩ := s
  simp only at hq hu
  subst hq
  have hstep : crawlStep ⟨v, pc, u :: rest⟩ .failure = ⟨v, pc, rest⟩ := by
    show (if u ∈ v then (⟨v, pc, rest⟩ : FrontierState) else ⟨v, pc, rest⟩) = _
    rw [if_neg hu]
  rw [hstep]
  exact ⟨rfl, rfl, rfl, fun visited q links h1 h2 h3 h4 =>
    enqueueLinks_mem_self visited links q u h1 h2 h3 h4⟩

/-- Witness for the amended C3 at a concrete state: the failed URL stays
unvisited and is re-enqueued from a later page's links. -/
theorem c3_failed_url_not_marked_visited_witness :
    (crawlStep ⟨["x"], 1, ["u", "p"]⟩ .failure).visited = ["x"] ∧
    (crawlStep ⟨["x"], 1, ["u", "p"]⟩ .failure).page_count = 1 ∧
    (crawlStep ⟨["x"], 1, ["u", "p"]⟩ .failure).queue = ["p"] ∧
    (∀ visited q links, "u" ∉ visited → "u" ∉ q → "u" ∈ links →
      is_allowed_url "u" = true → "u" ∈ enqueueLinks visited q links) :=
  c3_failed_url_not_marked_visited ⟨["x"], 1, ["u", "p"]⟩ "u" ["p"] rfl (by decide)

/-! ## Tokenizer claims C6 (stop-word / special-token filter) -/

/-- Claim C6: every token `tokenize` emits contains a digit, a hyphen or a
percent sign, or else is outside the combined stop-word set and longer
than two characters; in particular the pure stop word "the" is dropped
while the digit-bearing "2mg" is retained. -/
theorem c6_token_filter :
    (∀ text : String, ∀ tok ∈ tokenize text,
      (∃ c ∈ tok.data, c.isDigit = true) ∨ '-' ∈ tok.data ∨ '%' ∈ tok.data ∨
        (tok ∉ ALL_STOPWORDS ∧ 2 < tok.length)) ∧
    tokenize "the" = [] ∧
    tokenize "take the 2mg dose" = ["2mg", "take", "dose"] := by
  refine ⟨?_, by decide, by decide⟩
  intro text tok htok
  by_cases hc : text = "" ∨ text = "Not found"
  · rw [tokenize, if_pos hc] at htok
    cases htok
  · rw [tokenize, if_neg hc] at htok
    have hk := (List.mem_filter.1 htok).2
    simp only [keepTok, Bool.or_eq_true, List.any_eq_true, Bool.and_eq_true,
      Bool.not_eq_true', decide_eq_false_iff_not, decide_eq_true_eq] at hk
    rcases hk with ((h | h) | h) | h
    · exact Or.inl h
    · exact Or.inr (Or.inl (by simpa using h))
    · exact Or.inr (Or.inr (Or.inl (by simpa using h)))
    · exact Or.inr (Or.inr (Or.inr h))

/-- Witness for C6 on a concrete text and token. -/
theorem c6_token_filter_witness :
    ("aspirin" ∈ tokenize "aspirin powder") ∧
    ((∃ c ∈ "aspirin".data, c.isDigit = true) ∨ '-' ∈ "aspirin".data ∨
      '%' ∈ "aspirin".data ∨ ("aspirin" ∉ ALL_STOPWORDS ∧ 2 < "aspirin".length)) :=
  ⟨by decide, c6_token_filter.1 "aspirin powder" "aspirin" (by decide)⟩

/-! ## Claim C10: hyphenated compounds are emitted whole *and* split

The generic-word pass runs on the dosage-stripped text, from which
compound matches were *not* removed, so every alphabetic segment of a
hyphenated compound of length ≥ 3 is also emitted as a word token.  The
lemmas below compute `tokenize` on an arbitrary compound word. -/

theorem uint32_le_iff_toNat (a b : UInt32) : a ≤ b ↔ a.toNat ≤ b.toNat := by
  rw [UInt32.le_def, BitVec.le_def]
  exact Iff.rfl

theorem lowerAlpha_toNat (c : Char) (h : lowerAlpha c = true) :
    97 ≤ c.toNat ∧ c.toNat ≤ 122 := by
  simp only [lowerAlpha, Bool.and_eq_true, decide_eq_true_eq, Char.le_def] at h
  exact ⟨by simpa [uint32_le_iff_toNat] using h.1, by simpa [uint32_le_iff_toNat] using h.2⟩

theorem lowerAlpha_not_digit (c : Char) (h : lowerAlpha c = true) : c.isDigit = false := by
  have hn := lowerAlpha_toNat c h
  have h3 : c.toNat = c.val.toNat := rfl
  simp only [Char.isDigit, Bool.and_eq_false_iff, decide_eq_false_iff_not, not_le]
  right
  intro hle
  have h2 : c.val.toNat ≤ (57 : UInt32).toNat := (uint32_le_iff_toNat _ _).mp hle
  have h4 : (57 : UInt32).toNat = 57 := rfl
  omega

theorem lowerAlpha_isLower (c : Char) (h : lowerAlpha c = true) : c.isLower = true := by
  have hn := lowerAlpha_toNat c h
  have h3 : c.toNat = c.val.toNat := rfl
  simp only [Char.isLower, Bool.and_eq_true, decide_eq_true_eq]
  refine ⟨?_, ?_⟩
  · show (97 : UInt32) ≤ c.val
    rw [uint32_le_iff_toNat]
    have h4 : (97 : UInt32).toNat = 97 := rfl
    omega
  · show c.val ≤ (122 : UInt32)
    rw [uint32_le_iff_toNat]
    have h4 : (122 : UInt32).toNat = 122 := rfl
    omega

theorem lowerAlpha_word (c : Char) (h : lowerAlpha c = true) : pyWordChar c = true := by
  simp [pyWordChar, Char.isAlphanum, Char.isAlpha, lowerAlpha_isLower c h]

theorem lowerAlpha_toLower (c : Char) (h : lowerAlpha c = true) : c.toLower = c := by
  have hn := lowerAlpha_toNat c h
  unfold Char.toLower
  rw [if_neg]
  omega

theorem lowerAlpha_ne_hyphen (c : Char) (h : lowerAlpha c = true) : c ≠ '-' := by
  intro rfl_eq
  subst rfl_eq
  exact absurd h (by decide)

theorem lowerAlpha_ne_percent (c : Char) (h : lowerAlpha c = true) : c ≠ '%' := by
  intro rfl_eq
  subst rfl_eq
  exact absurd h (by decide)

theorem tryDosage_no_digit (prev : Option Char) (c : Char) (rest : List Char)
    (h : c.isDigit = false) : tryDosage prev (c :: rest) = none := by
  unfold tryDosage
  by_cases hw : isWordOpt prev = true
  · rw [if_pos hw]
  · rw [if_neg hw]
    have : numPart (c :: rest) = none := by
      simp [numPart, List.takeWhile, h]
    rw [this]

theorem dosageScan_no_digit (fuel : Nat) :
    ∀ prev s, (∀ c ∈ s, c.isDigit = false) → s.length < fuel →
      dosageScan fuel prev s = ([], s) := by
  induction fuel with
  | zero => intro prev s _ hl; omega
  | succ n ih =>
    intro prev s hnd hl
    match s with
    | [] => rfl
    | c :: rest =>
      show dosageScan (n + 1) prev (c :: rest) = ([], c :: rest)
      unfold dosageScan
      rw [tryDosage_no_digit prev c rest (hnd c (List.mem_cons_self _ _))]
      have := ih (some c) rest (fun x hx => hnd x (List.mem_cons_of_mem _ hx))
        (by simpa using Nat.lt_of_succ_lt_succ hl)
      simp [this]

theorem tryPercent_no_digit (prev : Option Char) (c : Char) (rest : List Char)
    (h : c.isDigit = false) : tryPercent prev (c :: rest) = none := by
  unfold tryPercent
  by_cases hw : isWordOpt prev = true
  · rw [if_pos hw]
  · rw [if_neg hw]
    have : numPart (c :: rest) = none := by
      simp [numPart, List.takeWhile, h]
    rw [this]

theorem percentScan_no_digit (fuel : Nat) :
    ∀ prev s, (∀ c ∈ s, c.isDigit = false) → s.length < fuel →
      percentScan fuel prev s = [] := by
  induction fuel with
  | zero => intro prev s _ hl; omega
  | succ n ih =>
    intro prev s hnd hl
    match s with
    | [] => rfl
    | c :: rest =>
      show percentScan (n + 1) prev (c :: rest) = []
      unfold percentScan
      rw [tryPercent_no_digit prev c rest (hnd c (List.mem_cons_self _ _))]
      exact ih (some c) rest (fun x hx => hnd x (List.mem_cons_of_mem _ hx))
        (by simpa using Nat.lt_of_succ_lt_succ hl)

/-- The run decomposition of the tail of a compound: a hyphen separator
followed by a letter run, repeated. -/
def runsOfTail : List (List Char) → List (Bool × List Char)
  | [] => []
  | seg :: rest => (false, ['-']) :: (true, seg) :: runsOfTail rest

/-- The run decomposition of a compound word `seg₀-seg₁-…`. -/
def runsOf : List (List Char) → List (Bool × List Char)
  | [] => []
  | seg :: rest => (true, seg) :: runsOfTail rest

/-- The tag of the first run, with `true` for the empty list (vacuous). -/
def headTagIs (b : Bool) : List (Bool × List Char) → Prop
  | [] => True
  | (b', _) :: _ => b' = b

theorem splitRuns_cons (c : Char) (rest : List Char) :
    splitRuns (c :: rest) =
      match splitRuns rest with
      | (b, run) :: more =>
        if pyWordChar c = b then (b, c :: run) :: more
        else (pyWordChar c, [c]) :: (b, run) :: more
      | [] => [(pyWordChar c, [c])] := rfl

theorem splitRuns_word_append :
    ∀ seg, seg ≠ [] → (∀ c ∈ seg, pyWordChar c = true) →
      ∀ more, headTagIs false (splitRuns more) →
        splitRuns (seg ++ more) = (true, seg) :: splitRuns more := by
  intro seg
  induction seg with
  | nil => intro h; exact absurd rfl h
  | cons c seg ih =>
    intro _ hw more hmore
    have hcw : pyWordChar c = true := hw c (List.mem_cons_self _ _)
    by_cases hs : seg = []
    · subst hs
      show splitRuns (c :: more) = (true, [c]) :: splitRuns more
      rw [splitRuns_cons]
      cases hsp : splitRuns more with
      | nil => simp [hcw]
      | cons hd tl =>
        obtain ⟨b, run⟩ := hd
        rw [hsp] at hmore
        have hb : b = false := hmore
        subst hb
        simp [hcw]
    · have htail := ih hs (fun x hx => hw x (List.mem_cons_of_mem _ hx)) more hmore
      show splitRuns (c :: (seg ++ more)) = (true, c :: seg) :: splitRuns more
      rw [splitRuns_cons, htail]
      simp [hcw]

theorem splitRuns_hyphen (more : List Char) (h : headTagIs true (splitRuns more)) :
    splitRuns ('-' :: more) = (false, ['-']) :: splitRuns more := by
  rw [splitRuns_cons]
  cases hsp : splitRuns more with
  | nil => simp [pyWordChar]
  | cons hd tl =>
    obtain ⟨b, run⟩ := hd
    rw [hsp] at h
    have hb : b = true := h
    subst hb
    simp [pyWordChar]

theorem intercalate_cons_cons (sep x y : List Char) (l : List (List Char)) :
    List.intercalate sep (x :: y :: l) = x ++ sep ++ List.intercalate sep (y :: l) := by
  simp [List.intercalate, List.intersperse]

theorem intercalate_singleton (sep x : List Char) :
    List.intercalate sep [x] = x := by
  simp [List.intercalate, List.intersperse]

theorem splitRuns_intercalate :
    ∀ segs, segs ≠ [] →
      (∀ seg ∈ segs, seg ≠ [] ∧ ∀ c ∈ seg, lowerAlpha c = true) →
      splitRuns (List.intercalate ['-'] segs) = runsOf segs := by
  intro segs
  induction segs with
  | nil => intro h; exact absurd rfl h
  | cons seg rest ih =>
    intro _ hseg
    obtain ⟨hne, hlo⟩ := hseg seg (List.mem_cons_self _ _)
    have hword : ∀ c ∈ seg, pyWordChar c = true := fun c hc => lowerAlpha_word c (hlo c hc)
    match rest with
    | [] =>
      rw [intercalate_singleton]
      have := splitRuns_word_append seg hne hword [] trivial
      simpa [runsOf, runsOfTail] using this
    | seg' :: rest' =>
      have hrest : seg' :: rest' ≠ [] := by simp
      have hih := ih hrest (fun s hs => hseg s (List.mem_cons_of_mem _ hs))
      rw [intercalate_cons_cons]
      have hheadT : headTagIs true (splitRuns (List.intercalate ['-'] (seg' :: rest'))) := by
        rw [hih]
        obtain ⟨hne', _⟩ := hseg seg' (List.mem_cons_of_mem _ (List.mem_cons_self _ _))
        simp [runsOf, headTagIs]
      have hhyp : splitRuns ('-' :: List.intercalate ['-'] (seg' :: rest')) =
          (false, ['-']) :: splitRuns (List.intercalate ['-'] (seg' :: rest')) :=
        splitRuns_hyphen _ hheadT
      have hheadF : headTagIs false (splitRuns ('-' :: List.intercalate ['-'] (seg' :: rest'))) := by
        rw [hhyp]; trivial
      calc splitRuns (seg ++ ['-'] ++ List.intercalate ['-'] (seg' :: rest'))
          = splitRuns (seg ++ ('-' :: List.intercalate ['-'] (seg' :: rest'))) := by
            rw [List.append_assoc]; rfl
        _ = (true, seg) :: splitRuns ('-' :: List.intercalate ['-'] (seg' :: rest')) :=
            splitRuns_word_append seg hne hword _ hheadF
        _ = (true, seg) :: (false, ['-']) :: splitRuns (List.intercalate ['-'] (seg' :: rest')) := by
            rw [hhyp]
        _ = runsOf (seg :: seg' :: rest') := by
            rw [hih]
            simp [runsOf, runsOfTail]

theorem chainCollect_zero (first : List Char) (rs : List (Bool × List Char)) :
    chainCollect 0 first rs = ([first], rs) := rfl

theorem chainCollect_nil (fuel : Nat) (first : List Char) :
    chainCollect fuel first [] = ([first], []) := by
  cases fuel <;> rfl

theorem chainCollect_step (fuel : Nat) (first seg : List Char) (rs : List (Bool × List Char)) :
    chainCollect (fuel + 1) first ((false, ['-']) :: (true, seg) :: rs) =
      if seg.all lowerAlpha then
        ((first :: (chainCollect fuel seg rs).1), (chainCollect fuel seg rs).2)
      else ([first], (false, ['-']) :: (true, seg) :: rs) := rfl

theorem runsOfTail_length (rest : List (List Char)) :
    (runsOfTail rest).length = 2 * rest.length := by
  induction rest with
  | nil => rfl
  | cons seg r ih => simp [runsOfTail, ih]; omega

theorem chainCollect_runsOfTail :
    ∀ rest : List (List Char), (∀ seg ∈ rest, ∀ c ∈ seg, lowerAlpha c = true) →
      ∀ first fuel, 2 * rest.length < fuel →
        chainCollect fuel first (runsOfTail rest) = (first :: rest, []) := by
  intro rest
  induction rest with
  | nil => intro _ first fuel _; exact chainCollect_nil fuel first
  | cons seg r ih =>
    intro hlo first fuel hf
    match fuel, hf with
    | n + 1, hf =>
      show chainCollect (n + 1) first ((false, ['-']) :: (true, seg) :: runsOfTail r) = _
      rw [chainCollect_step]
      have hall : seg.all lowerAlpha = true :=
        List.all_eq_true.2 (fun c hc => hlo seg (List.mem_cons_self _ _) c hc)
      rw [if_pos hall, ih (fun s hs c hc => hlo s (List.mem_cons_of_mem _ hs) c hc)
        seg n (by simp at hf; omega)]

theorem compoundsFromRuns_nil (fuel : Nat) : compoundsFromRuns fuel [] = [] := by
  cases fuel <;> rfl

theorem compoundsFromRuns_word_step (fuel : Nat) (r : List Char)
    (rs : List (Bool × List Char)) :
    compoundsFromRuns (fuel + 1) ((true, r) :: rs) =
      if r.all lowerAlpha then
        (if 2 ≤ (chainCollect (rs.length + 1) r rs).1.length then
          List.intercalate ['-'] (chainCollect (rs.length + 1) r rs).1 ::
            compoundsFromRuns fuel (chainCollect (rs.length + 1) r rs).2
         else compoundsFromRuns fuel rs)
      else compoundsFromRuns fuel rs := rfl

theorem compoundsFromRuns_runsOf (seg₀ : List Char) (rest : List (List Char)) (fuel : Nat)
    (h0 : ∀ c ∈ seg₀, lowerAlpha c = true)
    (hrest : ∀ seg ∈ rest, ∀ c ∈ seg, lowerAlpha c = true)
    (hne : rest ≠ []) (hf : 0 < fuel) :
    compoundsFromRuns fuel ((true, seg₀) :: runsOfTail rest) =
      [List.intercalate ['-'] (seg₀ :: rest)] := by
  match fuel, hf with
  | n + 1, _ =>
    rw [compoundsFromRuns_word_step]
    have hall : seg₀.all lowerAlpha = true := List.all_eq_true.2 h0
    rw [if_pos hall]
    have hcc : chainCollect ((runsOfTail rest).length + 1) seg₀ (runsOfTail rest) =
        (seg₀ :: rest, []) := by
      apply chainCollect_runsOfTail rest hrest seg₀
      rw [runsOfTail_length]
      omega
    rw [hcc]
    have hlen : 2 ≤ (seg₀ :: rest).length := by
      cases rest with
      | nil => exact absurd rfl hne
      | cons a b => simp
    rw [if_pos hlen, compoundsFromRuns_nil]

theorem wordsFromRuns_cons_hyphen (rs : List (Bool × List Char)) :
    wordsFromRuns ((false, ['-']) :: rs) = wordsFromRuns rs := rfl

theorem wordsFromRuns_cons_word (seg : List Char) (rs : List (Bool × List Char))
    (hall : seg.all lowerAlpha = true) :
    wordsFromRuns ((true, seg) :: rs) =
      (if 3 ≤ seg.length then [seg] else []) ++ wordsFromRuns rs := by
  simp only [wordsFromRuns, List.filterMap_cons, hall]
  by_cases hl : 3 ≤ seg.length <;> simp [hl]

theorem wordsFromRuns_runsOfTail (rest : List (List Char))
    (h : ∀ seg ∈ rest, ∀ c ∈ seg, lowerAlpha c = true) :
    wordsFromRuns (runsOfTail rest) = rest.filter (fun seg => decide (3 ≤ seg.length)) := by
  induction rest with
  | nil => rfl
  | cons seg r ih =>
    have hall : seg.all lowerAlpha = true :=
      List.all_eq_true.2 (fun c hc => h seg (List.mem_cons_self _ _) c hc)
    have ihr := ih (fun s hs c hc => h s (List.mem_cons_of_mem _ hs) c hc)
    show wordsFromRuns ((false, ['-']) :: (true, seg) :: runsOfTail r) = _
    rw [wordsFromRuns_cons_hyphen, wordsFromRuns_cons_word seg _ hall, ihr, List.filter_cons]
    by_cases hl : 3 ≤ seg.length <;> simp [hl]

theorem wordsFromRuns_runsOf (segs : List (List Char))
    (h : ∀ seg ∈ segs, ∀ c ∈ seg, lowerAlpha c = true) :
    wordsFromRuns (runsOf segs) = segs.filter (fun seg => decide (3 ≤ seg.length)) := by
  cases segs with
  | nil => rfl
  | cons seg rest =>
    have hall : seg.all lowerAlpha = true :=
      List.all_eq_true.2 (fun c hc => h seg (List.mem_cons_self _ _) c hc)
    have htail := wordsFromRuns_runsOfTail rest
      (fun s hs c hc => h s (List.mem_cons_of_mem _ hs) c hc)
    show wordsFromRuns ((true, seg) :: runsOfTail rest) = _
    rw [wordsFromRuns_cons_word seg _ hall, htail, List.filter_cons]
    by_cases hl : 3 ≤ seg.length <;> simp [hl]

theorem intercalate_chars (segs : List (List Char))
    (h : ∀ seg ∈ segs, ∀ c ∈ seg, lowerAlpha c = true) :
    ∀ c ∈ List.intercalate ['-'] segs, lowerAlpha c = true ∨ c = '-' := by
  induction segs with
  | nil => intro c hc; simp [List.intercalate] at hc
  | cons seg rest ih =>
    intro c hc
    cases rest with
    | nil =>
      rw [intercalate_singleton] at hc
      exact Or.inl (h seg (List.mem_cons_self _ _) c hc)
    | cons seg' rest' =>
      rw [intercalate_cons_cons] at hc
      rcases List.mem_append.1 hc with hc | hc
      · rcases List.mem_append.1 hc with hc | hc
        · exact Or.inl (h seg (List.mem_cons_self _ _) c hc)
        · exact Or.inr (List.mem_singleton.1 hc)
      · exact ih (fun s hs => h s (List.mem_cons_of_mem _ hs)) c hc

theorem intercalate_hyphen_mem (segs : List (List Char)) (h : 2 ≤ segs.length) :
    '-' ∈ List.intercalate ['-'] segs := by
  match segs, h with
  | seg :: seg' :: rest, _ =>
    rw [intercalate_cons_cons]
    exact List.mem_append.2 (Or.inl (List.mem_append.2 (Or.inr (List.mem_singleton.2 rfl))))

/-- Claim C10: for a hyphenated compound of two or more alphabetic
segments, `tokenize` emits the whole compound *and* each segment of
length ≥ 3 as a separate word token (subject only to stop-word
filtering), because compound matches are not removed from the working
text before the generic-word pass; e.g. "anti-viral" yields
"anti-viral", "anti" and "viral", and its document length is 3. -/
theorem c10_compound_tokens :
    (∀ segs : List (List Char), 2 ≤ segs.length →
      (∀ seg ∈ segs, seg ≠ [] ∧ ∀ c ∈ seg, lowerAlpha c = true) →
      tokenize (String.mk (List.intercalate ['-'] segs)) =
        String.mk (List.intercalate ['-'] segs) ::
          ((segs.filter (fun seg => decide (3 ≤ seg.length))).map String.mk).filter
            (fun w => decide (w ∉ ALL_STOPWORDS))) ∧
    tokenize "anti-viral" = ["anti-viral", "anti", "viral"] ∧
    dictGetD (add_document emptyIndexer "d" "anti-viral").doc_lengths "d" 0 = 3 := by
  refine ⟨?_, by decide, by decide⟩
  intro segs hn hseg
  have hchars : ∀ c ∈ List.intercalate ['-'] segs, lowerAlpha c = true ∨ c = '-' :=
    intercalate_chars segs (fun s hs => (hseg s hs).2)
  have hhyp : '-' ∈ List.intercalate ['-'] segs := intercalate_hyphen_mem segs hn
  have hguard : ¬(String.mk (List.intercalate ['-'] segs) = "" ∨
      String.mk (List.intercalate ['-'] segs) = "Not found") := by
    rintro (h | h)
    · have hdat : List.intercalate ['-'] segs = ([] : List Char) := congrArg String.data h
      rw [hdat] at hhyp
      cases hhyp
    · have hdat : List.intercalate ['-'] segs = "Not found".data := congrArg String.data h
      have hsp : ' ' ∈ List.intercalate ['-'] segs := by
        rw [hdat]; decide
      rcases hchars ' ' hsp with hc | hc
      · exact absurd hc (by decide)
      · exact absurd hc (by decide)
  have hmapfull : (String.mk (List.intercalate ['-'] segs)).data.map Char.toLower =
      List.intercalate ['-'] segs := by
    show (List.intercalate ['-'] segs).map Char.toLower = List.intercalate ['-'] segs
    have hfix : ∀ c ∈ List.intercalate ['-'] segs, Char.toLower c = c := by
      intro c hc
      rcases hchars c hc with h | rfl
      · exact lowerAlpha_toLower c h
      · decide
    calc (List.intercalate ['-'] segs).map Char.toLower
        = (List.intercalate ['-'] segs).map id := List.map_congr_left hfix
      _ = List.intercalate ['-'] segs := List.map_id _
  have hnd : ∀ c ∈ List.intercalate ['-'] segs, c.isDigit = false := by
    intro c hc
    rcases hchars c hc with h | rfl
    · exact lowerAlpha_not_digit c h
    · decide
  have hscan : dosageScan ((List.intercalate ['-'] segs).length + 1) none
      (List.intercalate ['-'] segs) = ([], List.intercalate ['-'] segs) :=
    dosageScan_no_digit _ none _ hnd (by omega)
  have hperc : percentScan ((List.intercalate ['-'] segs).length + 1) none
      (List.intercalate ['-'] segs) = [] :=
    percentScan_no_digit _ none _ hnd (by omega)
  have hsegsne : segs ≠ [] := by
    intro h; rw [h] at hn; simp at hn
  have hsplit : splitRuns (List.intercalate ['-'] segs) = runsOf segs :=
    splitRuns_intercalate segs hsegsne hseg
  have hwords : wordsFromRuns (runsOf segs) =
      segs.filter (fun seg => decide (3 ≤ seg.length)) :=
    wordsFromRuns_runsOf segs (fun s hs => (hseg s hs).2)
  have hcomp : compoundsFromRuns ((runsOf segs).length + 1) (runsOf segs) =
      [List.intercalate ['-'] segs] := by
    match segs, hn, hseg with
    | seg₀ :: seg₁ :: rest, _, hseg =>
      show compoundsFromRuns _ ((true, seg₀) :: runsOfTail (seg₁ :: rest)) = _
      exact compoundsFromRuns_runsOf seg₀ (seg₁ :: rest) _
        (hseg seg₀ (List.mem_cons_self _ _)).2
        (fun s hs c hc => (hseg s (List.mem_cons_of_mem _ hs)).2 c hc)
        (by simp) (by omega)
  have hkeepL : keepTok (String.mk (List.intercalate ['-'] segs)) = true := by
    simp only [keepTok, Bool.or_eq_true, List.any_eq_true, Bool.and_eq_true,
      Bool.not_eq_true', decide_eq_false_iff_not, decide_eq_true_eq, List.contains_iff_exists_mem_beq]
    exact Or.inl (Or.inl (Or.inr ⟨'-', hhyp, by simp⟩))
  have hfc : ∀ w ∈ ((segs.filter (fun seg => decide (3 ≤ seg.length))).map String.mk),
      keepTok w = decide (w ∉ ALL_STOPWORDS) := by
    intro w hw
    obtain ⟨seg, hsegmem, rfl⟩ := List.mem_map.1 hw
    obtain ⟨hsegs, hlen⟩ := List.mem_filter.1 hsegmem
    have hlo : ∀ c ∈ seg, lowerAlpha c = true := (hseg seg hsegs).2
    have h3 : 3 ≤ seg.length := by simpa using hlen
    have hdigP : ∀ c ∈ seg, c.isDigit = false := fun c hc => lowerAlpha_not_digit c (hlo c hc)
    have hhyP : '-' ∉ seg := fun hm => lowerAlpha_ne_hyphen '-' (hlo '-' hm) rfl
    have hpcP : '%' ∉ seg := fun hm => lowerAlpha_ne_percent '%' (hlo '%' hm) rfl
    have hany : seg.any Char.isDigit = false := by
      rw [List.any_eq_false]
      intro c hc
      simp [hdigP c hc]
    have h2l : 2 < seg.length := by omega
    simp [keepTok, hhyP, hpcP, hany, h2l, decide_not]
  rw [tokenize, if_neg hguard]
  simp only [hmapfull, hscan, hperc, hsplit, hwords, hcomp, List.map_nil,
    List.nil_append, List.append_nil, List.map_cons, List.map_append,
    List.cons_append, List.filter_cons, hkeepL, List.filter_congr hfc]
  simp

/-- Witness for C10 at the compound "anti-viral". -/
theorem c10_compound_tokens_witness :
    tokenize (String.mk (List.intercalate ['-'] [['a','n','t','i'], ['v','i','r','a','l']])) =
      String.mk (List.intercalate ['-'] [['a','n','t','i'], ['v','i','r','a','l']]) ::
        (([['a','n','t','i'], ['v','i','r','a','l']].filter
            (fun seg => decide (3 ≤ seg.length))).map String.mk).filter
          (fun w => decide (w ∉ ALL_STOPWORDS)) :=
  c10_compound_tokens.1 [['a','n','t','i'], ['v','i','r','a','l']] (by decide) (by decide)

/-! ## Indexer lemmas: `counter`, `postingsSum`, `add_document` -/

theorem dictGet?_of_getD_pos {n : Nat} (d : List (String × Nat)) (k : String)
    (h : dictGetD d k 0 = n) (hn : 0 < n) : dictGet? d k = some n := by
  unfold dictGetD at h
  cases hg : dictGet? d k with
  | none => rw [hg] at h; simp at h; omega
  | some v => rw [hg] at h; simp at h; rw [h]

theorem counter_foldl_getD (l : List String) :
    ∀ acc t, dictGetD (l.foldl (fun d t => dictSet d t (dictGetD d t 0 + 1)) acc) t 0 =
      dictGetD acc t 0 + l.count t := by
  induction l with
  | nil => intro acc t; simp [List.count_nil]
  | cons a l ih =>
    intro acc t
    show dictGetD (l.foldl _ (dictSet acc a (dictGetD acc a 0 + 1))) t 0 = _
    rw [ih]
    by_cases h : a = t
    · subst h
      rw [dictGetD_set_self]
      simp [List.count_cons]
      omega
    · rw [dictGetD_set_ne _ _ _ _ _ (fun hh => h hh.symm)]
      simp [List.count_cons, h]

theorem counter_getD (l : List String) (t : String) :
    dictGetD (counter l) t 0 = l.count t := by
  unfold counter
  rw [counter_foldl_getD]
  simp [dictGetD, dictGet?]

theorem counter_foldl_sum (l : List String) :
    ∀ acc, sumVals (l.foldl (fun d t => dictSet d t (dictGetD d t 0 + 1)) acc) =
      sumVals acc + l.length := by
  induction l with
  | nil => intro acc; simp
  | cons a l ih =>
    intro acc
    show sumVals (l.foldl _ (dictSet acc a (dictGetD acc a 0 + 1))) = _
    rw [ih, sumVals_set_add]
    simp
    omega

theorem counter_sum (l : List String) : sumVals (counter l) = l.length := by
  unfold counter
  rw [counter_foldl_sum]
  simp [sumVals]

theorem counter_foldl_nodup (l : List String) :
    ∀ acc, NodupKeys acc →
      NodupKeys (l.foldl (fun d t => dictSet d t (dictGetD d t 0 + 1)) acc) := by
  induction l with
  | nil => intro acc h; exact h
  | cons a l ih =>
    intro acc h
    exact ih _ (nodupKeys_set _ _ _ h)

theorem counter_nodupKeys (l : List String) : NodupKeys (counter l) :=
  counter_foldl_nodup l [] (by simp [NodupKeys, dictKeys])

theorem counter_foldl_keys (l : List String) :
    ∀ acc t, t ∈ dictKeys (l.foldl (fun d t => dictSet d t (dictGetD d t 0 + 1)) acc) →
      t ∈ dictKeys acc ∨ t ∈ l := by
  induction l with
  | nil => intro acc t h; exact Or.inl h
  | cons a l ih =>
    intro acc t h
    rcases ih _ t h with h' | h'
    · rw [dictKeys_set] at h'
      by_cases ha : a ∈ dictKeys acc
      · rw [if_pos ha] at h'
        exact Or.inl h'
      · rw [if_neg ha] at h'
        rcases List.mem_append.1 h' with h'' | h''
        · exact Or.inl h''
        · rcases List.mem_singleton.1 h'' with rfl
          exact Or.inr (List.mem_cons_self _ _)
    · exact Or.inr (List.mem_cons_of_mem _ h')

theorem counter_keys_subset (l : List String) (t : String)
    (h : t ∈ dictKeys (counter l)) : t ∈ l := by
  rcases counter_foldl_keys l [] t h with h' | h'
  · simp [dictKeys] at h'
  · exact h'

theorem counter_mem (l : List String) (t : String) (h : t ∈ l) :
    (t, l.count t) ∈ counter l := by
  apply dictGet?_mem
  exact dictGet?_of_getD_pos _ _ (counter_getD l t) (List.count_pos_iff.2 h)

theorem postingsSum_zero_entry (ix : List (String × List (String × Nat))) (d : String)
    (h : postingsSum ix d = 0) : ∀ t, dictGetD (dictGetD ix t []) d 0 = 0 := by
  induction ix with
  | nil => intro t; simp [dictGetD, dictGet?]
  | cons p rest ih =>
    intro t
    simp only [postingsSum, List.map_cons, List.sum_cons] at h
    have h1 : dictGetD p.2 d 0 = 0 := by omega
    have h2 : postingsSum rest d = 0 := by
      simp only [postingsSum]; omega
    by_cases hp : p.1 = t
    · subst hp
      show dictGetD (dictGetD (p :: rest) p.1 []) d 0 = 0
      simp only [dictGetD, dictGet?, if_pos rfl]
      exact h1
    · show dictGetD (dictGetD (p :: rest) t []) d 0 = 0
      simp only [dictGetD, dictGet?, if_neg hp]
      exact ih h2 t

theorem postingsSum_set_fresh (ix : List (String × List (String × Nat))) (t : String)
    (inner : List (String × Nat)) (d : String)
    (h : dictGetD (dictGetD ix t []) d 0 = 0) :
    postingsSum (dictSet ix t inner) d = postingsSum ix d + dictGetD inner d 0 := by
  induction ix with
  | nil => simp [dictSet, postingsSum]
  | cons p rest ih =>
    by_cases hp : p.1 = t
    · subst hp
      simp [dictGetD, dictGet?] at h
      simp [dictSet, postingsSum, dictGetD, h]
      omega
    · have hh : dictGetD (dictGetD rest t []) d 0 = 0 := by
        simpa only [dictGetD, dictGet?, if_neg hp] using h
      have hrec := ih hh
      simp only [dictSet, if_neg hp, postingsSum, List.map_cons, List.sum_cons]
      simp only [postingsSum] at hrec
      omega

theorem postingsSum_set_preserve (ix : List (String × List (String × Nat))) (t : String)
    (inner : List (String × Nat)) (d : String)
    (h : dictGetD inner d 0 = dictGetD (dictGetD ix t []) d 0) :
    postingsSum (dictSet ix t inner) d = postingsSum ix d := by
  induction ix with
  | nil =>
    simp only [dictGetD, dictGet?, Option.getD_none] at h
    simp [dictSet, postingsSum, dictGetD, dictGet?, h]
  | cons p rest ih =>
    by_cases hp : p.1 = t
    · subst hp
      simp [dictGetD, dictGet?] at h
      simp [dictSet, postingsSum, dictGetD, h]
    · have hh : dictGetD inner d 0 = dictGetD (dictGetD rest t []) d 0 := by
        simpa only [dictGetD, dictGet?, if_neg hp] using h
      have hrec := ih hh
      simp only [dictSet, if_neg hp, postingsSum, List.map_cons, List.sum_cons]
      simp only [postingsSum] at hrec
      omega

theorem addFold_postingsSum_self (d : String) :
    ∀ tc : List (String × Nat), ∀ ix, NodupKeys tc →
      (∀ p ∈ tc, dictGetD (dictGetD ix p.1 []) d 0 = 0) →
      postingsSum
        (tc.foldl (fun ix p => dictSet ix p.1 (dictSet (dictGetD ix p.1 []) d p.2)) ix) d =
        postingsSum ix d + sumVals tc := by
  intro tc
  induction tc with
  | nil => intro ix _ _; simp [sumVals]
  | cons q rest ih =>
    intro ix hnd hfresh
    have hq : dictGetD (dictGetD ix q.1 []) d 0 = 0 := hfresh q (List.mem_cons_self _ _)
    have hstep : postingsSum (dictSet ix q.1 (dictSet (dictGetD ix q.1 []) d q.2)) d =
        postingsSum ix d + q.2 := by
      rw [postingsSum_set_fresh _ _ _ _ hq, dictGetD_set_self]
    have hnd' : NodupKeys rest := by
      simp only [NodupKeys, dictKeys, List.map_cons, List.nodup_cons] at hnd
      exact hnd.2
    have hqnot : q.1 ∉ rest.map Prod.fst := by
      simp only [NodupKeys, dictKeys, List.map_cons, List.nodup_cons] at hnd
      exact hnd.1
    have hfresh' : ∀ p ∈ rest,
        dictGetD (dictGetD (dictSet ix q.1 (dictSet (dictGetD ix q.1 []) d q.2)) p.1 []) d 0
          = 0 := by
      intro p hp
      have hne : p.1 ≠ q.1 := by
        intro he
        exact hqnot (he ▸ List.mem_map_of_mem Prod.fst hp)
      rw [dictGetD_set_ne _ _ _ _ _ hne]
      exact hfresh p (List.mem_cons_of_mem _ hp)
    show postingsSum (rest.foldl _ (dictSet ix q.1 (dictSet (dictGetD ix q.1 []) d q.2))) d = _
    rw [ih _ hnd' hfresh', hstep]
    simp [sumVals]
    omega

theorem addFold_postingsSum_other (d d' : String) (hne : d' ≠ d) :
    ∀ tc : List (String × Nat), ∀ ix,
      postingsSum
        (tc.foldl (fun ix p => dictSet ix p.1 (dictSet (dictGetD ix p.1 []) d p.2)) ix) d' =
        postingsSum ix d' := by
  intro tc
  induction tc with
  | nil => intro ix; rfl
  | cons q rest ih =>
    intro ix
    have hstep : postingsSum (dictSet ix q.1 (dictSet (dictGetD ix q.1 []) d q.2)) d' =
        postingsSum ix d' := by
      apply postingsSum_set_preserve
      rw [dictGetD_set_ne _ _ _ _ _ hne]
    show postingsSum (rest.foldl _ (dictSet ix q.1 (dictSet (dictGetD ix q.1 []) d q.2))) d' = _
    rw [ih, hstep]

theorem addFold_getD_not_mem (d : String) :
    ∀ tc : List (String × Nat), ∀ ix t, t ∉ tc.map Prod.fst →
      dictGetD
        (tc.foldl (fun ix p => dictSet ix p.1 (dictSet (dictGetD ix p.1 []) d p.2)) ix) t [] =
        dictGetD ix t [] := by
  intro tc
  induction tc with
  | nil => intro ix t _; rfl
  | cons q rest ih =>
    intro ix t ht
    have htq : t ≠ q.1 := by
      intro he
      exact ht (by rw [he]; exact List.mem_cons_self _ _)
    have htr : t ∉ rest.map Prod.fst := fun hm => ht (List.mem_cons_of_mem _ hm)
    show dictGetD (rest.foldl _ (dictSet ix q.1 (dictSet (dictGetD ix q.1 []) d q.2))) t [] = _
    rw [ih _ t htr, dictGetD_set_ne _ _ _ _ _ htq]

theorem addFold_getD_mem (d : String) :
    ∀ tc : List (String × Nat), ∀ ix t c, NodupKeys tc → (t, c) ∈ tc →
      dictGetD (dictGetD
        (tc.foldl (fun ix p => dictSet ix p.1 (dictSet (dictGetD ix p.1 []) d p.2)) ix) t [])
        d 0 = c := by
  intro tc
  induction tc with
  | nil => intro ix t c _ hm; cases hm
  | cons q rest ih =>
    intro ix t c hnd hm
    have hnd' : NodupKeys rest := by
      simp only [NodupKeys, dictKeys, List.map_cons, List.nodup_cons] at hnd
      exact hnd.2
    have hqnot : q.1 ∉ rest.map Prod.fst := by
      simp only [NodupKeys, dictKeys, List.map_cons, List.nodup_cons] at hnd
      exact hnd.1
    rcases List.mem_cons.1 hm with rfl | hm'
    · show dictGetD (dictGetD
        (rest.foldl _ (dictSet ix t (dictSet (dictGetD ix t []) d c))) t []) d 0 = c
      rw [addFold_getD_not_mem d rest _ t hqnot, dictGetD_set_self, dictGetD_set_self]
    · exact ih _ t c hnd' hm'

/-- Claim C7 counterexample: re-adding `doc_id` "d1" with new text
"ibuprofen" leaves the stale posting `index["aspirin"]["d1"] = 1` from
the first call in place, whereas indexing "ibuprofen" alone stores no
"aspirin" posting for "d1"; so a re-add does not make the postings for
"d1" exactly those of the new text. -/
theorem c7_counterexample :
    dictGetD (dictGetD
      (add_document (add_document emptyIndexer "d1" "aspirin") "d1" "ibuprofen").index
      "aspirin" []) "d1" 0 = 1 ∧
    dictGetD (dictGetD
      (add_document emptyIndexer "d1" "ibuprofen").index "aspirin" []) "d1" 0 = 0 := by
  decide

/-- Claim C7 (amended): re-adding a `doc_id` overwrites `doc_lengths`
with the new token count, increments `doc_count` again, and overwrites
`postings[t][doc_id]` for every term `t` of the *new* text; but postings
for terms absent from the new text are left untouched, so stale entries
from the old text persist rather than being removed. -/
theorem c7_readd_overwrites_new_terms_only (idx : Indexer) (d : String) (text : String) :
    dictGetD (add_document idx d text).doc_lengths d 0 = (tokenize text).length ∧
    (add_document idx d text).doc_count = idx.doc_count + 1 ∧
    (∀ t ∈ tokenize text,
      dictGetD (dictGetD (add_document idx d text).index t []) d 0 =
        (tokenize text).count t) ∧
    (∀ t, t ∉ tokenize text →
      dictGetD (add_document idx d text).index t [] = dictGetD idx.index t []) := by
  refine ⟨?_, rfl, ?_, ?_⟩
  · show dictGetD (dictSet idx.doc_lengths d (tokenize text).length) d 0 = _
    rw [dictGetD_set_self]
  · intro t ht
    exact addFold_getD_mem d (counter (tokenize text)) idx.index t _
      (counter_nodupKeys _) (counter_mem _ t ht)
  · intro t ht
    apply addFold_getD_not_mem
    intro hm
    exact ht (counter_keys_subset _ t hm)

/-- Witness for the amended C7 on a concrete re-add. -/
theorem c7_readd_overwrites_new_terms_only_witness :
    dictGetD (Indexer.doc_lengths
        (add_document (add_document emptyIndexer "d1" "aspirin") "d1" "ibuprofen"))
      "d1" 0 = (tokenize "ibuprofen").length ∧
    ("ibuprofen" ∈ tokenize "ibuprofen") ∧
    dictGetD (dictGetD
      (add_document (add_document emptyIndexer "d1" "aspirin") "d1" "ibuprofen").index
      "ibuprofen" []) "d1" 0 = (tokenize "ibuprofen").count "ibuprofen" :=
  ⟨(c7_readd_overwrites_new_terms_only (add_document emptyIndexer "d1" "aspirin")
      "d1" "ibuprofen").1,
   by decide,
   (c7_readd_overwrites_new_terms_only (add_document emptyIndexer "d1" "aspirin")
      "d1" "ibuprofen").2.2.1 "ibuprofen" (by decide)⟩

theorem add_document_doc_lengths_other (idx : Indexer) (d : String) (text : String)
    (d' : String) (h : d' ≠ d) :
    dictGetD (add_document idx d text).doc_lengths d' 0 = dictGetD idx.doc_lengths d' 0 := by
  show dictGetD (dictSet idx.doc_lengths d (tokenize text).length) d' 0 = _
  rw [dictGetD_set_ne _ _ _ _ _ h]

theorem buildFold_preserve :
    ∀ docs : List (String × String), ∀ idx d, d ∉ docs.map Prod.fst →
      postingsSum (docs.foldl (fun ix p => add_document ix p.1 p.2) idx).index d =
        postingsSum idx.index d ∧
      dictGetD (docs.foldl (fun ix p => add_document ix p.1 p.2) idx).doc_lengths d 0 =
        dictGetD idx.doc_lengths d 0 := by
  intro docs
  induction docs with
  | nil => intro idx d _; exact ⟨rfl, rfl⟩
  | cons q rest ih =>
    intro idx d hd
    have hne : d ≠ q.1 := by
      intro he
      exact hd (by rw [he]; exact List.mem_cons_self _ _)
    have hdr : d ∉ rest.map Prod.fst := fun hm => hd (List.mem_cons_of_mem _ hm)
    have h1 : postingsSum (add_document idx q.1 q.2).index d = postingsSum idx.index d :=
      addFold_postingsSum_other q.1 d hne (counter (tokenize q.2)) idx.index
    have h2 : dictGetD (add_document idx q.1 q.2).doc_lengths d 0 =
        dictGetD idx.doc_lengths d 0 := add_document_doc_lengths_other idx q.1 q.2 d hne
    have := ih (add_document idx q.1 q.2) d hdr
    exact ⟨this.1.trans h1, this.2.trans h2⟩

theorem buildFold_spec :
    ∀ docs : List (String × String), ∀ idx, (docs.map Prod.fst).Nodup →
      (∀ d ∈ docs.map Prod.fst,
        postingsSum idx.index d = 0 ∧ dictGetD idx.doc_lengths d 0 = 0) →
      (∀ d ∈ docs.map Prod.fst,
        dictGetD (docs.foldl (fun ix p => add_document ix p.1 p.2) idx).doc_lengths d 0 =
          postingsSum (docs.foldl (fun ix p => add_document ix p.1 p.2) idx).index d) ∧
      (docs.foldl (fun ix p => add_document ix p.1 p.2) idx).doc_count =
        idx.doc_count + docs.length := by
  intro docs
  induction docs with
  | nil => intro idx _ _; exact ⟨fun d hd => absurd hd (by simp), by simp⟩
  | cons q rest ih =>
    intro idx hnd hfresh
    have hnd' : (rest.map Prod.fst).Nodup := (List.nodup_cons.1 (by simpa using hnd)).2
    have hq : q.1 ∉ rest.map Prod.fst := (List.nodup_cons.1 (by simpa using hnd)).1
    have hfq := hfresh q.1 (by simp)
    have hfresh' : ∀ d ∈ rest.map Prod.fst,
        postingsSum (add_document idx q.1 q.2).index d = 0 ∧
        dictGetD (add_document idx q.1 q.2).doc_lengths d 0 = 0 := by
      intro d hd
      have hne : d ≠ q.1 := by
        intro he
        exact hq (he ▸ hd)
      constructor
      · exact (addFold_postingsSum_other q.1 d hne (counter (tokenize q.2)) idx.index).trans
          (hfresh d (List.mem_cons_of_mem _ hd)).1
      · exact (add_document_doc_lengths_other idx q.1 q.2 d hne).trans
          (hfresh d (List.mem_cons_of_mem _ hd)).2
    have hrest := ih (add_document idx q.1 q.2) hnd' hfresh'
    refine ⟨?_, ?_⟩
    · intro d hd
      have hd2 : d = q.1 ∨ d ∈ rest.map Prod.fst := by simpa using hd
      rcases hd2 with heq | hd'
      · subst heq
        have hpres := buildFold_preserve rest (add_document idx q.1 q.2) q.1 hq
        show dictGetD (List.foldl (fun ix p => add_document ix p.1 p.2)
            (add_document idx q.1 q.2) rest).doc_lengths q.1 0 =
          postingsSum (List.foldl (fun ix p => add_document ix p.1 p.2)
            (add_document idx q.1 q.2) rest).index q.1
        rw [hpres.1, hpres.2]
        have hsum : postingsSum (add_document idx q.1 q.2).index q.1 =
            (tokenize q.2).length := by
          show postingsSum ((counter (tokenize q.2)).foldl _ idx.index) q.1 = _
          rw [addFold_postingsSum_self q.1 (counter (tokenize q.2)) idx.index
            (counter_nodupKeys _) (fun p _ => postingsSum_zero_entry idx.index q.1 hfq.1 p.1),
            hfq.1, counter_sum]
          simp
        have hlen : dictGetD (add_document idx q.1 q.2).doc_lengths q.1 0 =
            (tokenize q.2).length := by
          show dictGetD (dictSet idx.doc_lengths q.1 (tokenize q.2).length) q.1 0 = _
          rw [dictGetD_set_self]
        rw [hsum, hlen]
      · exact hrest.1 d hd'
    · show (List.foldl (fun ix p => add_document ix p.1 p.2)
          (add_document idx q.1 q.2) rest).doc_count = idx.doc_count + (q :: rest).length
      rw [hrest.2]
      show idx.doc_count + 1 + rest.length = idx.doc_count + (rest.length + 1)
      omega

/-- Claim C4: for an index built by `add_document` calls with pairwise
distinct document ids, every added document's stored length equals the
sum over all terms of its postings entries, and the document counter
equals the number of calls. -/
theorem c4_index_additivity (docs : List (String × String))
    (hnd : (docs.map Prod.fst).Nodup) (d : String) (hd : d ∈ docs.map Prod.fst) :
    dictGetD (buildIndex docs).doc_lengths d 0 = postingsSum (buildIndex docs).index d ∧
    (buildIndex docs).doc_count = docs.length := by
  have h := buildFold_spec docs emptyIndexer hnd (fun d _ => ⟨rfl, rfl⟩)
  exact ⟨h.1 d hd, by simpa [emptyIndexer] using h.2⟩

/-- Witness for C4 on a two-document index. -/
theorem c4_index_additivity_witness :
    dictGetD (buildIndex [("A", "pain relief"), ("B", "pain")]).doc_lengths "A" 0 =
      postingsSum (buildIndex [("A", "pain relief"), ("B", "pain")]).index "A" ∧
    (buildIndex [("A", "pain relief"), ("B", "pain")]).doc_count = 2 :=
  c4_index_additivity [("A", "pain relief"), ("B", "pain")] (by decide) "A" (by decide)

/-! ## Claim C8: save/load round trip -/

theorem decodeDict_encodeDict {β : Type} (enc : β → Json) (dec : Json → Option β)
    (hinv : ∀ b, dec (enc b) = some b) (d : List (String × β)) :
    decodeDict dec (encodeDict enc d) = some d := by
  induction d with
  | nil => rfl
  | cons p rest ih =>
    simp only [encodeDict, List.map_cons, decodeDict, List.mapM_cons, hinv p.2,
      Option.map_some'] at ih ⊢
    rw [ih]
    rfl

theorem decode_encode_nat (n : Nat) : decodeNat (Json.num n) = some n := rfl

theorem decode_encode_str (s : String) : decodeStr (Json.str s) = some s := rfl

/-- Claim C8: saving an index and loading the saved document restores the
postings, the document count, the document lengths and the drug record
store exactly (save followed by load is the identity on the observable
index contents). -/
theorem c8_save_load_round_trip (idx : Indexer) :
    load_index (save_index idx) = some idx := by
  obtain ⟨ix, dc, dl, dr⟩ := idx
  have hix : decodeDict (decodeDict decodeNat) (encodeDict (encodeDict Json.num) ix) =
      some ix :=
    decodeDict_encodeDict _ _
      (fun inner => decodeDict_encodeDict _ _ decode_encode_nat inner) ix
  have hdl : decodeDict decodeNat (encodeDict Json.num dl) = some dl :=
    decodeDict_encodeDict _ _ decode_encode_nat dl
  have hdr : decodeDict (decodeDict decodeStr) (encodeDict (encodeDict Json.str) dr) =
      some dr :=
    decodeDict_encodeDict _ _
      (fun inner => decodeDict_encodeDict _ _ decode_encode_str inner) dr
  simp only [save_index, load_index, jfield, dictGet?, Option.bind_eq_bind]
  simp [hix, hdl, hdr, decodeNat]

/-! ## Claim C9: IDF boundary values -/

/-- Claim C9: `standard_idf` returns 0 when the document frequency is 0;
`probabilistic_idf` returns 0 when it is 0 or equals `N`; `bm25_idf` is
well defined and finite for every `df ≤ N` because the argument of the
logarithm is strictly positive; and the divisor `df + 1` used by
`smooth_idf` is never zero. -/
theorem c9_idf_boundaries (c : IDFCalculator) (t : String) (hN : dfOf c t ≤ c.N) :
    (dfOf c t = 0 → standard_idf c t = 0) ∧
    (dfOf c t = 0 ∨ dfOf c t = c.N → probabilistic_idf c t = 0) ∧
    0 < ((c.N : ℝ) - (dfOf c t : ℝ) + 0.5) / ((dfOf c t : ℝ) + 0.5) ∧
    ((dfOf c t : ℝ) + 1) ≠ 0 ∧
    smooth_idf c t = Real.log ((c.N : ℝ) / ((dfOf c t : ℝ) + 1)) := by
  refine ⟨?_, ?_, ?_, ?_, rfl⟩
  · intro h
    simp [standard_idf, h]
  · intro h
    simp [probabilistic_idf, h]
  · apply div_pos
    · have hc : (dfOf c t : ℝ) ≤ (c.N : ℝ) := by exact_mod_cast hN
      linarith
    · have : (0 : ℝ) ≤ (dfOf c t : ℝ) := Nat.cast_nonneg _
      linarith
  · have : (0 : ℝ) ≤ (dfOf c t : ℝ) := Nat.cast_nonneg _
    linarith

/-- Witness for C9 on a one-term index with two documents. -/
theorem c9_idf_boundaries_witness :
    (dfOf ⟨[("pain", [("A", 1), ("B", 2)])], 2⟩ "zzz" = 0 →
      standard_idf ⟨[("pain", [("A", 1), ("B", 2)])], 2⟩ "zzz" = 0) ∧
    (dfOf ⟨[("pain", [("A", 1), ("B", 2)])], 2⟩ "zzz" = 0 ∨
        dfOf ⟨[("pain", [("A", 1), ("B", 2)])], 2⟩ "zzz" = 2 →
      probabilistic_idf ⟨[("pain", [("A", 1), ("B", 2)])], 2⟩ "zzz" = 0) ∧
    0 < (((2 : Nat) : ℝ) - ((dfOf ⟨[("pain", [("A", 1), ("B", 2)])], 2⟩ "zzz" : Nat) : ℝ)
          + 0.5) /
        (((dfOf ⟨[("pain", [("A", 1), ("B", 2)])], 2⟩ "zzz" : Nat) : ℝ) + 0.5) ∧
    (((dfOf ⟨[("pain", [("A", 1), ("B", 2)])], 2⟩ "zzz" : Nat) : ℝ) + 1) ≠ 0 ∧
    smooth_idf ⟨[("pain", [("A", 1), ("B", 2)])], 2⟩ "zzz" =
      Real.log ((((2 : Nat) : ℝ)) /
        (((dfOf ⟨[("pain", [("A", 1), ("B", 2)])], 2⟩ "zzz" : Nat) : ℝ) + 1)) :=
  c9_idf_boundaries ⟨[("pain", [("A", 1), ("B", 2)])], 2⟩ "zzz" (by decide)

/-! ## Claim C5: conjunctive filtering of `search` -/

/-- How many postings of `t` (counted with multiplicity of the doc key)
mention document `d`; zero when `t` is not in the index. -/
def matchCount (ix : List (String × List (String × Nat))) (d : String) (t : String) : Nat :=
  match dictGet? ix t with
  | none => 0
  | some ps => (ps.map Prod.fst).count d

theorem scoreStep_counts {α : Type} [LinearOrderedField α] (idf : String → α)
    (term : String) (d : String) :
    ∀ ps : List (String × Nat), ∀ acc : List (String × α) × List (String × Nat),
      dictGetD (ps.foldl (scoreStep idf term) acc).2 d 0 =
        dictGetD acc.2 d 0 + (ps.map Prod.fst).count d := by
  intro ps
  induction ps with
  | nil => intro acc; simp
  | cons p rest ih =>
    intro acc
    rw [List.foldl_cons, ih]
    show dictGetD (dictSet acc.2 p.1 (dictGetD acc.2 p.1 0 + 1)) d 0 + _ = _
    by_cases hp : p.1 = d
    · subst hp
      rw [dictGetD_set_self]
      simp [List.count_cons]
      omega
    · rw [dictGetD_set_ne _ _ _ _ _ (fun hh => hp hh.symm)]
      simp [List.count_cons, hp]

theorem termStep_counts {α : Type} [LinearOrderedField α] (idx : Indexer)
    (idf : String → α) (d : String) :
    ∀ qts : List String, ∀ acc : List (String × α) × List (String × Nat),
      dictGetD (qts.foldl (termStep idx idf) acc).2 d 0 =
        dictGetD acc.2 d 0 + (qts.map (matchCount idx.index d)).sum := by
  intro qts
  induction qts with
  | nil => intro acc; simp
  | cons t rest ih =>
    intro acc
    rw [List.foldl_cons, ih]
    cases hget : dictGet? idx.index t with
    | none =>
      simp only [termStep, hget, List.map_cons, List.sum_cons, matchCount]
      omega
    | some ps =>
      simp only [termStep, hget, List.map_cons, List.sum_cons, matchCount]
      rw [scoreStep_counts]
      omega

theorem length_filter_eq_sum {X : Type} (p : X → Bool) :
    ∀ l : List X, (l.filter p).length = (l.map (fun x => if p x then 1 else 0)).sum := by
  intro l
  induction l with
  | nil => rfl
  | cons a rest ih =>
    rw [List.filter_cons]
    by_cases hp : p a
    · simp [hp, ih]
      omega
    · simp [hp, ih]

theorem matchCount_le (idx : Indexer) (hwf : ∀ q ∈ idx.index, NodupKeys q.2)
    (d t : String) :
    matchCount idx.index d t ≤ (if (dictGet? idx.index t).isSome then 1 else 0) := by
  unfold matchCount
  cases hget : dictGet? idx.index t with
  | none => simp
  | some ps =>
    simp only [Option.isSome_some, if_pos rfl]
    have hnd : NodupKeys ps := hwf (t, ps) (dictGet?_mem _ _ _ hget)
    exact List.nodup_iff_count_le_one.1 hnd d

theorem sum_le_forces_eq {X : Type} :
    ∀ (l : List X) (f g : X → Nat), (∀ x ∈ l, f x ≤ g x) →
      (l.map f).sum = (l.map g).sum → ∀ x ∈ l, f x = g x := by
  intro l
  induction l with
  | nil => intro f g _ _ x hx; cases hx
  | cons a rest ih =>
    intro f g hle hsum x hx
    have h1 : f a ≤ g a := hle a (List.mem_cons_self _ _)
    have h2 : (rest.map f).sum ≤ (rest.map g).sum :=
      List.sum_le_sum (fun i hi => hle i (List.mem_cons_of_mem _ hi))
    simp only [List.map_cons, List.sum_cons] at hsum
    have hfa : f a = g a := by omega
    have hrest : (rest.map f).sum = (rest.map g).sum := by omega
    rcases List.mem_cons.1 hx with rfl | hx'
    · exact hfa
    · exact ih f g (fun y hy => hle y (List.mem_cons_of_mem _ hy)) hrest x hx'

theorem insertDesc_subset {α : Type} [LinearOrder α] (p : String × α) :
    ∀ l x, x ∈ insertDesc p l → x = p ∨ x ∈ l := by
  intro l
  induction l with
  | nil =>
    intro x hx
    rcases List.mem_singleton.1 hx with rfl
    exact Or.inl rfl
  | cons q rest ih =>
    intro x hx
    unfold insertDesc at hx
    by_cases hc : p.2 ≤ q.2
    · rw [if_pos hc] at hx
      rcases List.mem_cons.1 hx with rfl | hx'
      · exact Or.inr (List.mem_cons_self _ _)
      · rcases ih x hx' with h | h
        · exact Or.inl h
        · exact Or.inr (List.mem_cons_of_mem _ h)
    · rw [if_neg hc] at hx
      rcases List.mem_cons.1 hx with rfl | hx'
      · exact Or.inl rfl
      · exact Or.inr hx'

theorem sortByScoreDesc_foldl_mem {α : Type} [LinearOrder α] :
    ∀ (l : List (String × α)) (acc : List (String × α)) (x : String × α),
      x ∈ l.foldl (fun acc p => insertDesc p acc) acc → x ∈ acc ∨ x ∈ l := by
  intro l
  induction l with
  | nil => intro acc x hx; exact Or.inl hx
  | cons p rest ih =>
    intro acc x hx
    rw [List.foldl_cons] at hx
    rcases ih (insertDesc p acc) x hx with h | h
    · rcases insertDesc_subset p acc x h with rfl | h'
      · exact Or.inr (List.mem_cons_self _ _)
      · exact Or.inl h'
    · exact Or.inr (List.mem_cons_of_mem _ h)

theorem sortByScoreDesc_mem {α : Type} [LinearOrder α] (l : List (String × α))
    (x : String × α) (hx : x ∈ sortByScoreDesc l) : x ∈ l := by
  rcases sortByScoreDesc_foldl_mem l [] x hx with h | h
  · cases h
  · exact h

/-- Claim C5: `search` returns only documents that carry *every* query
term present in the index vocabulary (a strict AND over indexed terms,
with unindexed query terms excluded from the required count rather than
failing the query) — stated for an arbitrary idf weight function, which
subsumes all four supported IDF models and the fallback; and on the
two-document example index, the query "pain relief" (with or without an
unindexed extra term) returns exactly document A and never B. -/
theorem c5_conjunctive_filter :
    (∀ (α : Type) [LinearOrderedField α], ∀ idx : Indexer,
      IndexerWF idx →
      ∀ (idf : String → α) (top_k : Nat) (query : String) (d : String) (s : α),
        (d, s) ∈ search idx idf top_k query →
        ∀ t ∈ tokenize query, (dictGet? idx.index t).isSome = true →
          d ∈ dictKeys (dictGetD idx.index t [])) ∧
    (∀ (α : Type) [LinearOrderedField α], ∀ idf : String → α,
      (search (buildIndex [("A", "pain relief"), ("B", "pain")]) idf 10 "pain relief").map
        Prod.fst = ["A"] ∧
      (search (buildIndex [("A", "pain relief"), ("B", "pain")]) idf 10
        "pain relief zzz").map Prod.fst = ["A"]) := by
  constructor
  · intro α inst idx hwf idf top_k query d s hmem t ht hsome
    have hne : (tokenize query).isEmpty = false :=
      List.isEmpty_eq_false.2 (List.ne_nil_of_mem ht)
    have hne' : ¬((tokenize query).isEmpty = true) := by simp [hne]
    simp only [search] at hmem
    rw [if_neg hne'] at hmem
    split at hmem
    · exact absurd hmem (List.not_mem_nil _)
    · have h1 : (d, s) ∈ sortByScoreDesc
          ((List.foldl (termStep idx idf)
              (([], []) : List (String × α) × List (String × Nat))
              (tokenize query)).1.filter
            (fun p => dictGetD (List.foldl (termStep idx idf)
                (([], []) : List (String × α) × List (String × Nat))
                (tokenize query)).2 p.1 0 ==
              ((tokenize query).filter
                (fun t => (dictGet? idx.index t).isSome)).length)) :=
        List.mem_of_mem_take hmem
      have h2 := sortByScoreDesc_mem _ _ h1
      have h3 := List.mem_filter.1 h2
      have hcnt0 := h3.2
      simp only [beq_iff_eq] at hcnt0
      have hcnt : dictGetD (List.foldl (termStep idx idf)
          (([], []) : List (String × α) × List (String × Nat))
          (tokenize query)).2 d 0 =
          ((tokenize query).filter (fun t => (dictGet? idx.index t).isSome)).length := hcnt0
      rw [termStep_counts idx idf d (tokenize query)] at hcnt
      have hz : dictGetD (([], []) : List (String × α) × List (String × Nat)).2 d 0 = 0 := rfl
      rw [hz, Nat.zero_add, length_filter_eq_sum] at hcnt
      have hforce := sum_le_forces_eq (tokenize query) (matchCount idx.index d)
        (fun t => if (dictGet? idx.index t).isSome then 1 else 0)
        (fun x _ => matchCount_le idx hwf.2 d x) hcnt t ht
      simp only [hsome, if_true] at hforce
      obtain ⟨ps, hget⟩ := Option.isSome_iff_exists.1 hsome
      have hmc : matchCount idx.index d t = (ps.map Prod.fst).count d := by
        unfold matchCount
        rw [hget]
      rw [hmc] at hforce
      have hdmem : d ∈ ps.map Prod.fst := List.count_pos_iff.1 (by omega)
      show d ∈ dictKeys (dictGetD idx.index t [])
      unfold dictGetD
      rw [hget]
      exact hdmem
  · intro α inst idf
    exact ⟨rfl, rfl⟩

/-- Witness for C5: instantiating the theorem on the concrete example
index (document "A" is returned for "pain relief" and indeed carries the
indexed query term "pain"). -/
theorem c5_conjunctive_filter_witness :
    "A" ∈ dictKeys (dictGetD (buildIndex [("A", "pain relief"), ("B", "pain")]).index
      "pain" []) := by
  have hmap := ((c5_conjunctive_filter.2 ℚ) (fun _ => 0)).1
  rcases hs : search (buildIndex [("A", "pain relief"), ("B", "pain")])
      (fun _ => (0 : ℚ)) 10 "pain relief" with _ | ⟨p, rest⟩
  · rw [hs] at hmap
    simp at hmap
  · rw [hs] at hmap
    simp only [List.map_cons, List.cons.injEq] at hmap
    refine c5_conjunctive_filter.1 ℚ
      (buildIndex [("A", "pain relief"), ("B", "pain")]) (by decide)
      (fun _ => (0 : ℚ)) 10 "pain relief" "A" p.2 ?_ "pain" (by decide) (by decide)
    rw [hs]
    have hp : ("A", p.2) = p := by
      obtain ⟨p1, p2⟩ := p
      simp only at hmap ⊢
      rw [hmap.1]
    rw [hp]
    exact List.mem_cons_self _ _
